import Mathlib

/-!
Verification of the xacct job-accounting formatter (src/xacct/xacct.py)
against its natural-language specification.

Python strings are shallowly embedded as lists of characters (`Str`);
Python `float` arithmetic on the small exact values handled by the memory
normalizer is embedded as exact rational arithmetic, and Python's
banker's rounding `round` as `pyRound`.  Records (ordered dictionaries)
are embedded as ordered association lists.
-/

set_option maxHeartbeats 1000000

/-- A Python string, as its list of characters (code points). -/
abbrev Str := List Char

/-- Whitespace characters recognised by Python's `str.strip()` (ASCII part). -/
def isWs (c : Char) : Bool :=
  c = ' ' || c = '\t' || c = '\n' || c = '\r' || c = Char.ofNat 11 || c = Char.ofNat 12

/-- Remove the characters satisfying `p` from both ends of a list (the
common core of Python `str.strip` and `str.strip(chars)`). -/
def strip2 (p : Char → Bool) (l : Str) : Str :=
  ((l.dropWhile p).reverse.dropWhile p).reverse

/-- Python `s.strip()`: remove whitespace from both ends. -/
def trimWs (l : Str) : Str :=
  strip2 isWs l

/-- Python `s.strip(c)` for a single character `c`: remove all copies of `c`
from both ends. -/
def stripCh (c : Char) (l : Str) : Str :=
  strip2 (· = c) l

/-- Python `s.endswith(c)` for a single character `c`. -/
def endsC (c : Char) (l : Str) : Bool :=
  l.getLast? = some c

/-- Numeric value of a digit string (most significant digit first). -/
def digitsVal (l : Str) : Nat :=
  l.foldl (fun a c => 10 * a + (c.toNat - 48)) 0

/-- An exact rational value, kept as an unreduced fraction with (by
construction) positive denominator.  Used to embed the exact values of the
Python `float` arithmetic in the memory normalizer, which only ever handles
small decimal literals scaled by powers of two. -/
structure Frac where
  num : ℤ
  den : ℤ
deriving DecidableEq, Repr

/-- Exact-value model of Python `float(s)` on plain decimal literals:
optional surrounding whitespace, optional sign, integer part and/or
fractional part.  (Exponents, `inf`/`nan` and digit underscores are outside
the fragment the program's data can contain.) -/
def parseNum (l : Str) : Option Frac :=
  let l := trimWs l
  let sgn : ℤ := if l.head? = some '-' then -1 else 1
  let l2 := if l.head? = some '-' || l.head? = some '+' then l.tail else l
  let ip := l2.takeWhile Char.isDigit
  let rest := l2.dropWhile Char.isDigit
  if rest = [] then
    if ip = [] then none else some ⟨sgn * digitsVal ip, 1⟩
  else if rest.head? = some '.' then
    let fp := rest.tail
    let fd := fp.takeWhile Char.isDigit
    if fp.dropWhile Char.isDigit ≠ [] then none
    else if ip = [] && fd = [] then none
    else some ⟨sgn * (digitsVal ip * 10 ^ fd.length + digitsVal fd), 10 ^ fd.length⟩
  else none

/-- Python 3 `round` on an exact value: round to the nearest integer, with
ties going to the even integer.  Meaningful for positive denominators, which
is the only way a `Frac` is ever built here. -/
def pyRound (x : Frac) : ℤ :=
  let f := x.num / x.den
  let m := x.num % x.den
  if 2 * m < x.den then f
  else if x.den < 2 * m then f + 1
  else if f % 2 = 0 then f else f + 1

/-- Result of `normalizeMem`: either the empty string (for empty or
whitespace-only input) or an integer number of mebibytes. -/
inductive MemVal where
  | empty : MemVal
  | val (n : ℤ) : MemVal
deriving DecidableEq, Repr

/-- Embedding of `normalizeMem` (xacct.py lines 99-119).  `none` models the
`ValueError` raised by `float` on a malformed numeric part. -/
def normalizeMem (x : Str) : Option MemVal :=
  if trimWs x = [] then some .empty
  else
    let x := stripCh 'c' (stripCh 'n' x)
    if endsC 'K' x then
      (parseNum (stripCh 'K' x)).map (fun q => .val (pyRound ⟨q.num * 2 ^ 10, q.den * 2 ^ 20⟩))
    else if endsC 'M' x then
      (parseNum (stripCh 'M' x)).map (fun q => .val (pyRound ⟨q.num * 2 ^ 20, q.den * 2 ^ 20⟩))
    else if endsC 'G' x then
      (parseNum (stripCh 'G' x)).map (fun q => .val (pyRound ⟨q.num * 2 ^ 30, q.den * 2 ^ 20⟩))
    else
      (parseNum x).map (fun q => .val (pyRound ⟨q.num, q.den * 2 ^ 20⟩))

example : normalizeMem "2G".data = some (.val 2048) := by decide
example : normalizeMem "1024K".data = some (.val 1) := by decide
example : normalizeMem "500Mn".data = some (.val 500) := by decide
example : normalizeMem "".data = some .empty := by decide
example : normalizeMem "  ".data = some .empty := by decide

/-! ### Helper lemmas on character lists -/

theorem dropWhile_all_false {p : Char → Bool} {l : Str} (h : ∀ c ∈ l, p c = false) :
    l.dropWhile p = l := by
  cases l with
  | nil => rfl
  | cons a t => simp [List.dropWhile_cons, h a (by simp)]

theorem takeWhile_all_true {p : Char → Bool} : ∀ {l : Str}, (∀ c ∈ l, p c = true) →
    l.takeWhile p = l
  | [], _ => rfl
  | a :: t, h => by
    have ht : List.takeWhile p t = t :=
      takeWhile_all_true (fun c hc => h c (List.mem_cons_of_mem a hc))
    simp [List.takeWhile_cons, h a (List.mem_cons_self a t), ht]

theorem dropWhile_all_true {p : Char → Bool} : ∀ {l : Str}, (∀ c ∈ l, p c = true) →
    l.dropWhile p = []
  | [], _ => rfl
  | a :: t, h => by
    have ht : List.dropWhile p t = [] :=
      dropWhile_all_true (fun c hc => h c (List.mem_cons_of_mem a hc))
    simp [List.dropWhile_cons, h a (List.mem_cons_self a t), ht]

theorem strip2_eq_self {p : Char → Bool} {l : Str} (h : ∀ c ∈ l, p c = false) :
    strip2 p l = l := by
  unfold strip2
  rw [dropWhile_all_false h, dropWhile_all_false (fun c hc => h c (List.mem_reverse.mp hc)),
    List.reverse_reverse]

theorem strip2_concat {p : Char → Bool} {l : Str} {u : Char} (hu : p u = true)
    (hne : l ≠ []) (hl : ∀ c ∈ l, p c = false) : strip2 p (l ++ [u]) = l := by
  unfold strip2
  obtain ⟨a, t, rfl⟩ := List.exists_cons_of_ne_nil hne
  rw [List.cons_append, List.dropWhile_cons, hl a (by simp)]
  simp only [Bool.false_eq_true, if_false]
  rw [← List.cons_append, List.reverse_append, List.reverse_singleton, List.singleton_append]
  rw [List.dropWhile_cons, hu, if_pos rfl]
  have hrev : ∀ c ∈ (a :: t).reverse, p c = false :=
    fun c hc => hl c (List.mem_reverse.mp hc)
  rw [dropWhile_all_false hrev, List.reverse_reverse]

theorem char_ne_of_digit {c u : Char} (hc : c.isDigit = true) (hu : u.isDigit = false) :
    (c = u) = False := by
  simp only [eq_iff_iff, iff_false]
  intro e
  rw [e, hu] at hc
  cases hc

theorem isWs_false_of_digit {c : Char} (hc : c.isDigit = true) : isWs c = false := by
  revert hc
  simp only [isWs, Char.isDigit]
  intro hc
  simp only [Bool.or_eq_false_iff, decide_eq_false_iff_not]
  refine ⟨⟨⟨⟨⟨?_, ?_⟩, ?_⟩, ?_⟩, ?_⟩, ?_⟩ <;>
    (intro e; subst e; revert hc; decide)

theorem digitsNotCh {ds : Str} (hds : ∀ c ∈ ds, c.isDigit = true) {u : Char}
    (hu : u.isDigit = false) : ∀ c ∈ ds, (c = u : Bool) = false := by
  intro c hc
  have := char_ne_of_digit (hds c hc) hu
  simp [this]

theorem digitsNotWs {ds : Str} (hds : ∀ c ∈ ds, c.isDigit = true) :
    ∀ c ∈ ds, isWs c = false :=
  fun c hc => isWs_false_of_digit (hds c hc)

/-! ### Lemmas about pyRound and parseNum -/

theorem pyRound_mul_self (a : ℤ) {d : ℤ} (hd : 0 < d) : pyRound ⟨a * d, d⟩ = a := by
  have hf : a * d / d = a := Int.mul_ediv_cancel a hd.ne'
  have hm : a * d % d = 0 := by rw [mul_comm]; exact Int.mul_emod_right d a
  simp only [pyRound, hf, hm]
  rw [if_pos (by simpa using hd)]

theorem pyRound_scale {c : ℤ} (hc : 0 < c) (n d : ℤ) :
    pyRound ⟨c * n, c * d⟩ = pyRound ⟨n, d⟩ := by
  have h1 : c * n / (c * d) = n / d := Int.mul_ediv_mul_of_pos n d hc
  have h2 : c * n % (c * d) = c * (n % d) := Int.mul_emod_mul_of_pos n d hc
  simp only [pyRound, h1, h2]
  have e1 : (2 * (c * (n % d)) < c * d) ↔ (2 * (n % d) < d) := by
    rw [show 2 * (c * (n % d)) = c * (2 * (n % d)) by ring]
    exact mul_lt_mul_left hc
  have e2 : (c * d < 2 * (c * (n % d))) ↔ (d < 2 * (n % d)) := by
    rw [show 2 * (c * (n % d)) = c * (2 * (n % d)) by ring]
    exact mul_lt_mul_left hc
  rw [if_congr e1 rfl (if_congr e2 rfl rfl)]

theorem parseNum_digits {ds : Str} (hne : ds ≠ []) (hds : ∀ c ∈ ds, c.isDigit = true) :
    parseNum ds = some ⟨(digitsVal ds : ℤ), 1⟩ := by
  have htrim : trimWs ds = ds := strip2_eq_self (digitsNotWs hds)
  obtain ⟨a, t, rfl⟩ := List.exists_cons_of_ne_nil hne
  have ha : a.isDigit = true := hds a (by simp)
  have h1 : ((a :: t : Str).head? = some '-') = False := by
    simp only [List.head?, Option.some.injEq]
    exact char_ne_of_digit ha (by decide)
  have h2 : ((a :: t : Str).head? = some '+') = False := by
    simp only [List.head?, Option.some.injEq]
    exact char_ne_of_digit ha (by decide)
  have htake : (a :: t : Str).takeWhile Char.isDigit = a :: t := takeWhile_all_true hds
  have hdrop : (a :: t : Str).dropWhile Char.isDigit = [] := dropWhile_all_true hds
  have hna : (a = '-') = False := char_ne_of_digit ha (by decide)
  have hnb : (a = '+') = False := char_ne_of_digit ha (by decide)
  simp [parseNum, htrim, h1, h2, hna, hnb, htake, hdrop]

theorem endsC_concat (ds : Str) (u c : Char) : endsC c (ds ++ [u]) = decide (u = c) := by
  simp [endsC, List.getLast?_concat]

theorem endsC_digits {ds : Str} (hne : ds ≠ []) (hds : ∀ c ∈ ds, c.isDigit = true)
    {c : Char} (hc : c.isDigit = false) : endsC c ds = false := by
  unfold endsC
  rw [List.getLast?_eq_getLast ds hne]
  have hb : ds.getLast hne ∈ ds := List.getLast_mem hne
  have := char_ne_of_digit (hds _ hb) hc
  simp [this]

theorem digits_concat_not_p {ds : Str} (hds : ∀ c ∈ ds, c.isDigit = true)
    {p : Char → Bool} (hp : ∀ c, c.isDigit = true → p c = false) {u : Char}
    (hu : p u = false) : ∀ c ∈ ds ++ [u], p c = false := by
  intro c hc
  rcases List.mem_append.mp hc with h | h
  · exact hp c (hds c h)
  · simp only [List.mem_singleton] at h
    rw [h]
    exact hu

theorem normMem_strip_nc {ds : Str} (hds : ∀ c ∈ ds, c.isDigit = true)
    {u : Char} (hun : ((u = 'n') : Bool) = false) (huc : ((u = 'c') : Bool) = false) :
    stripCh 'c' (stripCh 'n' (ds ++ [u])) = ds ++ [u] := by
  have h1 : stripCh 'n' (ds ++ [u]) = ds ++ [u] :=
    strip2_eq_self (digits_concat_not_p hds
      (fun c hc => by simpa using char_ne_of_digit hc (by decide)) hun)
  rw [h1]
  exact strip2_eq_self (digits_concat_not_p hds
    (fun c hc => by simpa using char_ne_of_digit hc (by decide)) huc)

theorem normMem_strip_nc_digits {ds : Str} (hds : ∀ c ∈ ds, c.isDigit = true) :
    stripCh 'c' (stripCh 'n' ds) = ds := by
  have h1 : stripCh 'n' ds = ds :=
    strip2_eq_self (fun c hc => by simpa using char_ne_of_digit (hds c hc) (by decide))
  rw [h1]
  exact strip2_eq_self (fun c hc => by simpa using char_ne_of_digit (hds c hc) (by decide))

/-- C1: normalizeMem converts a memory string with optional unit suffix K, M,
or G (and optional trailing n or c marker) to an integer count of mebibytes
using binary (power-of-1024) conversion uniformly, a value with no unit
suffix being taken as bytes; in particular normalizeMem("2G") = 2048,
normalizeMem("1024K") = 1, normalizeMem("500Mn") = 500, and for every empty
or whitespace-only input it returns the empty string, not zero. -/
theorem C1_normalizeMem :
    (∀ s : Str, trimWs s = [] → normalizeMem s = some .empty) ∧
    normalizeMem "2G".data = some (.val 2048) ∧
    normalizeMem "1024K".data = some (.val 1) ∧
    normalizeMem "500Mn".data = some (.val 500) ∧
    normalizeMem "".data = some .empty ∧
    ∀ ds : Str, ds ≠ [] → (∀ c ∈ ds, c.isDigit = true) →
      normalizeMem (ds ++ ['G']) = some (.val (1024 * (digitsVal ds : ℤ))) ∧
      normalizeMem (ds ++ ['M']) = some (.val (digitsVal ds : ℤ)) ∧
      normalizeMem (ds ++ ['K']) = some (.val (pyRound ⟨(digitsVal ds : ℤ), 2 ^ 10⟩)) ∧
      normalizeMem ds = some (.val (pyRound ⟨(digitsVal ds : ℤ), 2 ^ 20⟩)) := by
  refine ⟨?_, by decide, by decide, by decide, by decide, ?_⟩
  · intro s h
    simp [normalizeMem, h]
  · intro ds hne hds
    have hnum := parseNum_digits hne hds
    have hcne : ∀ u : Char, (ds ++ [u] : Str) ≠ [] := by simp
    refine ⟨?_, ?_, ?_, ?_⟩
    · -- G suffix
      have htrim : trimWs (ds ++ ['G']) = ds ++ ['G'] :=
        strip2_eq_self (digits_concat_not_p hds
          (fun c hc => isWs_false_of_digit hc) (by decide))
      have hstrip := normMem_strip_nc hds (u := 'G') (by decide) (by decide)
      have hlast : stripCh 'G' (ds ++ ['G']) = ds :=
        strip2_concat (by decide) hne (digitsNotCh hds (by decide))
      simp only [normalizeMem, htrim, hcne 'G', if_neg (hcne 'G'), hstrip,
        endsC_concat, hlast, hnum, Option.map_some]
      simp only [decide_eq_true_eq, show (('G' : Char) = 'K') = False from by decide,
        show (('G' : Char) = 'M') = False from by decide,
        show (('G' : Char) = 'G') = True from by decide, if_false, if_true, ite_false,
        ite_true, Option.map_some', one_mul, Option.some.injEq, MemVal.val.injEq]
      rw [show ((digitsVal ds : ℤ)) * 2 ^ 30 = (1024 * (digitsVal ds : ℤ)) * 2 ^ 20 by ring]
      exact pyRound_mul_self _ (by positivity)
    · -- M suffix
      have htrim : trimWs (ds ++ ['M']) = ds ++ ['M'] :=
        strip2_eq_self (digits_concat_not_p hds
          (fun c hc => isWs_false_of_digit hc) (by decide))
      have hstrip := normMem_strip_nc hds (u := 'M') (by decide) (by decide)
      have hlast : stripCh 'M' (ds ++ ['M']) = ds :=
        strip2_concat (by decide) hne (digitsNotCh hds (by decide))
      simp only [normalizeMem, htrim, hcne 'M', if_neg (hcne 'M'), hstrip,
        endsC_concat, hlast, hnum, Option.map_some]
      simp only [decide_eq_true_eq, show (('M' : Char) = 'K') = False from by decide,
        show (('M' : Char) = 'M') = True from by decide, if_false, if_true, ite_false,
        ite_true, Option.map_some', one_mul, Option.some.injEq, MemVal.val.injEq]
      exact pyRound_mul_self _ (by positivity)
    · -- K suffix
      have htrim : trimWs (ds ++ ['K']) = ds ++ ['K'] :=
        strip2_eq_self (digits_concat_not_p hds
          (fun c hc => isWs_false_of_digit hc) (by decide))
      have hstrip := normMem_strip_nc hds (u := 'K') (by decide) (by decide)
      have hlast : stripCh 'K' (ds ++ ['K']) = ds :=
        strip2_concat (by decide) hne (digitsNotCh hds (by decide))
      simp only [normalizeMem, htrim, hcne 'K', if_neg (hcne 'K'), hstrip,
        endsC_concat, hlast, hnum, Option.map_some]
      simp only [decide_eq_true_eq, show (('K' : Char) = 'K') = True from by decide,
        if_true, ite_true, ite_false, Option.map_some', one_mul,
        Option.some.injEq, MemVal.val.injEq]
      rw [show ((digitsVal ds : ℤ)) * 2 ^ 10 = 2 ^ 10 * (digitsVal ds : ℤ) by ring,
        show (2 ^ 20 : ℤ) = 2 ^ 10 * 2 ^ 10 by norm_num]
      exact pyRound_scale (by positivity) _ _
    · -- no suffix: value taken as bytes
      have htrim : trimWs ds = ds := strip2_eq_self (digitsNotWs hds)
      have hstrip := normMem_strip_nc_digits hds
      simp only [normalizeMem, htrim, if_neg hne, hstrip,
        endsC_digits hne hds (c := 'K') (by decide),
        endsC_digits hne hds (c := 'M') (by decide),
        endsC_digits hne hds (c := 'G') (by decide),
        hnum, Option.map_some]
      simp only [Bool.false_eq_true, if_false, ite_false, Option.map_some', one_mul]

/-- Witness for C1: concrete instances discharging the hypotheses. -/
theorem C1_normalizeMem_witness :
    normalizeMem "   ".data = some .empty ∧
    normalizeMem "7G".data = some (.val (1024 * (digitsVal "7".data : ℤ))) := by
  constructor
  · exact C1_normalizeMem.1 "   ".data (by decide)
  · have h := (C1_normalizeMem.2.2.2.2.2 "7".data (by decide) (by decide)).1
    have e : "7".data ++ ['G'] = "7G".data := by decide
    rw [e] at h
    exact h

/-! ### Records and the batch-merge loop (xacct.py lines 150-153, 307-332) -/

/-- A record: an ordered mapping from column name to string value, as
produced by the csv DictReader. -/
abbrev Rec := List (Str × Str)

/-- Key lookup in a record (Python `line[key]`, `key in line`). -/
def getv : Rec → Str → Option Str
  | [], _ => none
  | (k', v) :: t, k => if k' = k then some v else getv t k

/-- In-place value update for an existing key (Python `d[k] = v`): the
mapping keeps its insertion order. -/
def setv (r : Rec) (k : Str) (v : Str) : Rec :=
  r.map (fun p => if p.1 = k then (p.1, v) else p)

/-- Python `'.batch' in s`. -/
def hasBatch : Str → Bool
  | '.' :: 'b' :: 'a' :: 't' :: 'c' :: 'h' :: _ => true
  | _ :: cs => hasBatch cs
  | [] => false

/-- Python `s.replace('.batch', '')`: remove every (leftmost,
non-overlapping) occurrence of the literal. -/
def stripBatch : Str → Str
  | '.' :: 'b' :: 'a' :: 't' :: 'c' :: 'h' :: rest => stripBatch rest
  | c :: cs => c :: stripBatch cs
  | [] => []

/-- Model of Python `int(s)`: optional surrounding whitespace, optional
sign, nonempty digit run. -/
def pyInt (l : Str) : Option ℤ :=
  let l := trimWs l
  let sgn : ℤ := if l.head? = some '-' then -1 else 1
  let l2 := if l.head? = some '-' || l.head? = some '+' then l.tail else l
  if l2 ≠ [] ∧ l2.all Char.isDigit then some (sgn * digitsVal l2) else none

def jobIDKey : Str := "JobID".data

def maxRSSKey : Str := "MaxRSS".data

/-- Embedding of `fillInJob` (xacct.py lines 150-153): copy the batch
record's MaxRSS into the job record when the job record has that column;
`none` models the KeyError when the batch record lacks it. -/
def fillInJob (jobid batchid : Rec) : Option Rec :=
  if (getv jobid maxRSSKey).isSome then
    match getv batchid maxRSSKey with
    | some v => some (setv jobid maxRSSKey v)
    | none => none
  else some jobid

/-- The ways the merge loop can die: a missing column (KeyError), a
non-numeric identifier under the fromId filter (ValueError), subscripting
the `None` current job (TypeError), and the explicit "Cannot find job id"
exception raised after printing both offending records. -/
inductive MergeErr where
  | keyError : MergeErr
  | valueError : MergeErr
  | noneSubscript : MergeErr
  | mismatch (a b : Rec) : MergeErr
deriving DecidableEq, Repr

/-- Is the error the fatal consistency error that surfaces both records? -/
def isMismatchErr : MergeErr → Bool
  | .mismatch _ _ => true
  | _ => false

/-- Merge loop state: accumulated output and the current job slot. -/
structure MState where
  out : List Rec
  idjob : Option Rec
deriving DecidableEq, Repr

/-- One iteration of the merge loop (xacct.py lines 309-330). -/
def mergeStep (fromId : Option ℤ) (st : MState) (line : Rec) : Except MergeErr MState :=
  match getv line jobIDKey with
  | none => .error .keyError
  | some jid =>
    let skip : Except MergeErr Bool :=
      match fromId with
      | none => .ok false
      | some f =>
        match pyInt (stripBatch jid) with
        | none => .error .valueError
        | some n => .ok (n ≤ f)
    match skip with
    | .error e => .error e
    | .ok true => .ok st
    | .ok false =>
      if hasBatch jid then
        match st.idjob with
        | none => .error .noneSubscript
        | some ij =>
          match getv ij jobIDKey with
          | none => .error .keyError
          | some ijid =>
            if ijid = stripBatch jid then
              match fillInJob ij line with
              | some r => .ok ⟨st.out ++ [r], none⟩
              | none => .error .keyError
            else .error (.mismatch ij line)
      else
        match st.idjob with
        | none => .ok ⟨st.out, some line⟩
        | some ij => .ok ⟨st.out ++ [ij], some line⟩

/-- Run the merge loop over the input lines, stopping at the first
uncaught exception; returns the state reached and the exception, if any. -/
def mergeRun (fromId : Option ℤ) : MState → List Rec → MState × Option MergeErr
  | st, [] => (st, none)
  | st, l :: ls =>
    match mergeStep fromId st l with
    | .ok st' => mergeRun fromId st' ls
    | .error e => (st, some e)

/-- The merged record list `sacct_mrg` (xacct.py lines 307-332), including
the final flush of a pending current job. -/
def sacct_mrg (fromId : Option ℤ) (lines : List Rec) : List Rec × Option MergeErr :=
  let r := mergeRun fromId ⟨[], none⟩ lines
  match r.2 with
  | some e => (r.1.out, some e)
  | none => (r.1.out ++ r.1.idjob.toList, none)

/-- Does this record carry the batch-task marker in its identifier? -/
def isBatchRec (r : Rec) : Bool :=
  match getv r jobIDKey with
  | some j => hasBatch j
  | none => false

/-- The hypothesis of claim C2: every batch-marked record is immediately
preceded by an unmarked job record whose identifier equals the batch
record's identifier with the marker stripped (`prev` carries the identifier
of the immediately preceding unmarked record, if the preceding record is
unmarked). -/
def wfB (prev : Option Str) : List Rec → Bool
  | [] => true
  | r :: rest =>
    match getv r jobIDKey with
    | none => false
    | some j =>
      if hasBatch j then
        decide (prev = some (stripBatch j)) && wfB none rest
      else wfB (some j) rest

/-- Modelled from claim C2's wording (the claim-side specification of the
merge): one output record per unmarked input record, in input order; a job
record immediately followed by a batch sub-record carries the batch
record's MaxRSS value. -/
def mergeClaimSpec : List Rec → List Rec
  | [] => []
  | [a] => [a]
  | a :: b :: rest =>
    if isBatchRec b then
      (match getv b maxRSSKey with
       | some v => setv a maxRSSKey v
       | none => a) :: mergeClaimSpec rest
    else a :: mergeClaimSpec (b :: rest)

/-! ### The merge loop refines the claim-side specification -/

theorem setv_cons (k1 v1 : Str) (t : Rec) (k' v : Str) :
    setv ((k1, v1) :: t) k' v =
      (if k1 = k' then (k1, v) else (k1, v1)) :: setv t k' v := by
  simp only [setv, List.map_cons]

theorem getv_setv_ne {r : Rec} {k k' : Str} (h : k ≠ k') (v : Str) :
    getv (setv r k' v) k = getv r k := by
  induction r with
  | nil => rfl
  | cons p t ih =>
    obtain ⟨k1, v1⟩ := p
    rw [setv_cons]
    by_cases h1 : k1 = k'
    · have hk : ¬ k1 = k := fun e => h (e ▸ h1)
      rw [if_pos h1]
      simp only [getv, if_neg hk]
      exact ih
    · rw [if_neg h1]
      simp only [getv]
      by_cases h2 : k1 = k
      · rw [if_pos h2, if_pos h2]
      · rw [if_neg h2, if_neg h2]
        exact ih

theorem mergeRun_claimSpec :
    ∀ (lines : List Rec) (pend : Option Rec) (out : List Rec),
      wfB (pend.bind (fun r => getv r jobIDKey)) lines = true →
      (∀ r ∈ lines, (getv r maxRSSKey).isSome = true) →
      (∀ r ∈ pend.toList, (getv r maxRSSKey).isSome = true) →
      ∃ st : MState,
        mergeRun none ⟨out, pend⟩ lines = (st, none) ∧
        st.out ++ st.idjob.toList = out ++ mergeClaimSpec (pend.toList ++ lines) := by
  intro lines
  induction lines with
  | nil =>
    intro pend out _ _ _
    refine ⟨⟨out, pend⟩, rfl, ?_⟩
    cases pend <;> simp [mergeClaimSpec]
  | cons l rest ih =>
    intro pend out hwf hkeys hpend
    rcases hj : getv l jobIDKey with _ | j
    · simp [wfB, hj] at hwf
    · simp only [wfB, hj] at hwf
      by_cases hb : hasBatch j = true
      · -- batch-marked record: the pending job must exist and match
        rw [if_pos hb, Bool.and_eq_true, decide_eq_true_eq] at hwf
        obtain ⟨hprev, hwrest⟩ := hwf
        rcases pend with _ | u
        · simp at hprev
        · simp only [Option.some_bind] at hprev
          rcases hrss : getv l maxRSSKey with _ | v
          · have := hkeys l (by simp)
            rw [hrss] at this
            cases this
          · have hurss : (getv u maxRSSKey).isSome = true := hpend u (by simp)
            have hfill : fillInJob u l = some (setv u maxRSSKey v) := by
              rw [fillInJob, if_pos hurss, hrss]
            have hstep : mergeStep none ⟨out, some u⟩ l =
                .ok ⟨out ++ [setv u maxRSSKey v], none⟩ := by
              simp [mergeStep, hj, hb, hprev, hfill]
            rw [mergeRun, hstep]
            obtain ⟨st, hrun, hcomb⟩ := ih none (out ++ [setv u maxRSSKey v])
              (by simpa using hwrest) (fun r hr => hkeys r (by simp [hr])) (by simp)
            refine ⟨st, hrun, ?_⟩
            rw [hcomb]
            have hbr : isBatchRec l = true := by rw [isBatchRec, hj]; exact hb
            simp only [Option.toList_some, List.singleton_append, List.nil_append,
              mergeClaimSpec, hbr, if_true, hrss]
            simp
      · -- unmarked record: it becomes the new current job
        have hb' : hasBatch j = false := by simpa using hb
        rw [if_neg hb] at hwf
        have hstep : mergeStep none ⟨out, pend⟩ l =
            .ok ⟨out ++ pend.toList, some l⟩ := by
          cases pend <;> simp [mergeStep, hj, hb']
        rw [mergeRun, hstep]
        obtain ⟨st, hrun, hcomb⟩ := ih (some l) (out ++ pend.toList)
          (by simpa [hj] using hwf) (fun r hr => hkeys r (by simp [hr]))
          (by intro r hr
              simp only [Option.toList_some, List.mem_singleton] at hr
              rw [hr]
              exact hkeys l (by simp))
        refine ⟨st, hrun, ?_⟩
        rw [hcomb]
        have hbr : isBatchRec l = false := by rw [isBatchRec, hj]; exact hb'
        rcases pend with _ | u
        · simp
        · simp only [Option.toList_some, List.singleton_append, List.append_assoc,
            List.cons_append, List.nil_append]
          congr 1
          rw [mergeClaimSpec, hbr]
          simp

theorem mergeClaimSpec_jidmap :
    ∀ lines : List Rec, wfB none lines = true →
      (mergeClaimSpec lines).map (fun r => getv r jobIDKey)
        = (lines.filter (fun r => !isBatchRec r)).map (fun r => getv r jobIDKey)
  | [], _ => rfl
  | [a], h => by
    rcases hj : getv a jobIDKey with _ | j
    · simp [wfB, hj] at h
    · simp only [wfB, hj] at h
      by_cases hb : hasBatch j = true
      · rw [if_pos hb] at h
        simp at h
      · have hbr : isBatchRec a = false := by rw [isBatchRec, hj]; simpa using hb
        simp [mergeClaimSpec, List.filter_cons, hbr]
  | a :: b :: rest, h => by
    rcases hja : getv a jobIDKey with _ | ja
    · simp [wfB, hja] at h
    · simp only [wfB, hja] at h
      by_cases hba : hasBatch ja = true
      · rw [if_pos hba] at h
        simp at h
      · rw [if_neg hba] at h
        have hbra : isBatchRec a = false := by rw [isBatchRec, hja]; simpa using hba
        rcases hjb : getv b jobIDKey with _ | jb
        · simp [wfB, hjb] at h
        · simp only [wfB, hjb] at h
          by_cases hbb : hasBatch jb = true
          · rw [if_pos hbb, Bool.and_eq_true] at h
            have hbrb : isBatchRec b = true := by rw [isBatchRec, hjb]; exact hbb
            have ihr := mergeClaimSpec_jidmap rest h.2
            have hkne : jobIDKey ≠ maxRSSKey := by decide
            rcases hrv : getv b maxRSSKey with _ | v <;>
              simp [mergeClaimSpec, hbrb, hrv, List.filter_cons, hbra, ihr,
                getv_setv_ne hkne]
          · rw [if_neg hbb] at h
            have hbrb : isBatchRec b = false := by rw [isBatchRec, hjb]; simpa using hbb
            have hwb : wfB none (b :: rest) = true := by
              simp only [wfB, hjb]
              rw [if_neg hbb]
              exact h
            have ihr := mergeClaimSpec_jidmap (b :: rest) hwb
            simp only [mergeClaimSpec, hbrb, Bool.false_eq_true, if_false,
              List.map_cons, List.filter_cons, hbra, Bool.not_false, if_true]
            rw [ihr]
            simp [List.filter_cons, hbrb]

/-- C2: for every parsed record sequence in which every batch-marked
record's identifier, with the marker stripped, equals the identifier of the
immediately preceding unmarked job record (and no minimum-identifier filter
is in effect), the merge produces exactly one output record per unmarked
input record, in input order, and each job record that was followed by a
batch sub-record carries that batch record's MaxRSS value (the output is
exactly `mergeClaimSpec`, which performs that per-pair fold). -/
theorem C2_merge (lines : List Rec)
    (hwf : wfB none lines = true)
    (hkeys : ∀ r ∈ lines, (getv r maxRSSKey).isSome = true) :
    sacct_mrg none lines = (mergeClaimSpec lines, none) ∧
    (mergeClaimSpec lines).map (fun r => getv r jobIDKey)
      = (lines.filter (fun r => !isBatchRec r)).map (fun r => getv r jobIDKey) ∧
    (mergeClaimSpec lines).length = (lines.filter (fun r => !isBatchRec r)).length := by
  obtain ⟨st, hrun, hcomb⟩ :=
    mergeRun_claimSpec lines none [] (by simpa using hwf) hkeys (by simp)
  have hmap := mergeClaimSpec_jidmap lines hwf
  refine ⟨?_, hmap, ?_⟩
  · simp only [sacct_mrg, hrun]
    simpa using hcomb
  · have := congrArg List.length hmap
    simpa using this

/-- Witness for C2 at a concrete three-record input. -/
theorem C2_merge_witness :
    sacct_mrg none
        [[(jobIDKey, "1".data), (maxRSSKey, ".".data)],
         [(jobIDKey, "1.batch".data), (maxRSSKey, "100".data)],
         [(jobIDKey, "2".data), (maxRSSKey, "50".data)]]
      = (mergeClaimSpec
          [[(jobIDKey, "1".data), (maxRSSKey, ".".data)],
           [(jobIDKey, "1.batch".data), (maxRSSKey, "100".data)],
           [(jobIDKey, "2".data), (maxRSSKey, "50".data)]], none) :=
  (C2_merge _ (by decide) (by decide)).1

theorem mergeRun_append {f : Option ℤ} :
    ∀ {l1 : List Rec} {st st1 : MState},
      mergeRun f st l1 = (st1, none) →
      ∀ l2, mergeRun f st (l1 ++ l2) = mergeRun f st1 l2
  | [], st, st1, h, l2 => by
    simp only [mergeRun, Prod.mk.injEq] at h
    rw [List.nil_append, h.1]
  | l :: ls, st, st1, h, l2 => by
    rw [mergeRun] at h
    cases hs : mergeStep f st l with
    | ok st' =>
      rw [hs] at h
      rw [List.cons_append, mergeRun, hs]
      exact mergeRun_append h l2
    | error e =>
      rw [hs] at h
      simp at h

/-- C3 (amended): a batch-marked record whose stripped identifier does not
match aborts the merge, and no further records are merged (the result does
not depend on the remaining input); when a current job record exists the
abort is the fatal consistency error surfacing both offending records, but
when no current job exists the abort is a TypeError-style error on
subscripting None, which surfaces neither record. -/
theorem C3_mismatch_abort (lines1 lines2 : List Rec) (b : Rec) (st : MState)
    (hrun : mergeRun none ⟨[], none⟩ lines1 = (st, none))
    (jb : Str) (hjb : getv b jobIDKey = some jb) (hbb : hasBatch jb = true) :
    (∀ u ju, st.idjob = some u → getv u jobIDKey = some ju → stripBatch jb ≠ ju →
      sacct_mrg none (lines1 ++ b :: lines2) = (st.out, some (.mismatch u b))) ∧
    (st.idjob = none →
      sacct_mrg none (lines1 ++ b :: lines2) = (st.out, some .noneSubscript)) := by
  constructor
  · intro u ju hu hju hne
    have hstep : mergeStep none st b = .error (.mismatch u b) := by
      simp only [mergeStep, hjb, hbb, if_true, hu, hju]
      rw [if_neg (fun e => hne e.symm)]
    simp only [sacct_mrg, mergeRun_append hrun, mergeRun, hstep]
  · intro hu
    have hstep : mergeStep none st b = .error .noneSubscript := by
      simp only [mergeStep, hjb, hbb, if_true, hu]
    simp only [sacct_mrg, mergeRun_append hrun, mergeRun, hstep]

/-- Witness for C3: a mismatched batch record after one job record aborts
with the consistency error carrying both records, regardless of the suffix. -/
theorem C3_mismatch_abort_witness :
    sacct_mrg none
        ([[(jobIDKey, "1".data)]] ++
          [(jobIDKey, "2.batch".data)] :: [[(jobIDKey, "3".data)]])
      = ([], some (.mismatch [(jobIDKey, "1".data)] [(jobIDKey, "2.batch".data)])) := by
  have h := (C3_mismatch_abort [[(jobIDKey, "1".data)]] [[(jobIDKey, "3".data)]]
      [(jobIDKey, "2.batch".data)] ⟨[], some [(jobIDKey, "1".data)]⟩ (by decide)
      "2.batch".data (by decide) (by decide)).1
  exact h [(jobIDKey, "1".data)] "1".data (by decide) (by decide) (by decide)

/-- C3 counterexample: with no preceding job record, the abort is not the
consistency error that surfaces both records; it is the None-subscript
TypeError. -/
theorem C3_counterexample :
    (sacct_mrg none [[(jobIDKey, "1.batch".data)]]).2 = some MergeErr.noneSubscript ∧
    isMismatchErr MergeErr.noneSubscript = false := by decide

/-- C4: evaluation of the merge at the failing input for the
minimum-identifier filter: with the threshold 5, the record whose identifier
equals 5 is skipped (the code's own help text says identifiers equal to or
greater than the threshold are shown). -/
theorem C4_fromId_eval :
    sacct_mrg (some 5) [[(jobIDKey, "5".data)], [(jobIDKey, "6".data)]]
      = ([[(jobIDKey, "6".data)]], none) := by decide

/-! ### The sort loop (xacct.py lines 334-343) -/

/-- Python string comparison: lexicographic by code point (with a proper
prefix ordered first), as the Mathlib lexicographic order on `List Char`. -/
def strLe (a b : Str) : Bool :=
  decide (a ≤ b)

/-- The comparison used by one `sorted(sacct_mrg, key=lambda k: k[s],
reverse=rev)` call: compare the records' values at the key, reversed
comparisons when `rev`. -/
def keyLe (s : Str) (rev : Bool) (a b : Rec) : Bool :=
  if rev then strLe ((getv b s).getD []) ((getv a s).getD [])
  else strLe ((getv a s).getD []) ((getv b s).getD [])

/-- Insert into a sorted list, before the first element not ≤-below the new
one; keeps an earlier element in front of later equal ones. -/
def orderedInsertB (le : α → α → Bool) (a : α) : List α → List α
  | [] => [a]
  | b :: l => if le a b then a :: b :: l else b :: orderedInsertB le a l

/-- Model of Python `sorted` with a key function: `sorted` is a stable sort,
and for a total preorder the stable sort is unique, so insertion sort
computes it. -/
def pySorted (le : α → α → Bool) (l : List α) : List α :=
  l.foldr (orderedInsertB le) []

/-- The warning written to stderr for an unknown sort key. -/
def warnMsg (s : Str) : Str :=
  "\nSort key ".data ++ s ++ " not found\n\n".data

/-- One iteration of the sort loop (lines 335-343): detect the descending
marker, strip it, sort stably by the key value, or — when some record lacks
the key (the KeyError from the lambda) — leave the order unchanged and warn. -/
def sortStep (recs : List Rec) (warnings : List Str) (s : Str) : List Rec × List Str :=
  let rev := endsC '-' s
  let key := if rev then s.dropLast else s
  if recs.all (fun r => (getv r key).isSome) then
    (pySorted (keyLe key rev) recs, warnings)
  else
    (recs, warnings ++ [warnMsg key])

def sortFold (acc : List Rec × List Str) (s : Str) : List Rec × List Str :=
  sortStep acc.1 acc.2 s

/-- The whole sort phase: `args.sort.reverse()` followed by the loop, so the
keys are applied in reverse-declaration order. -/
def sortRecords (sortKeys : List Str) (recs : List Rec) : List Rec × List Str :=
  (sortKeys.reverse).foldl sortFold (recs, [])

/-! ### Sorting lemmas -/

theorem strLe_iff {a b : Str} : strLe a b = true ↔ a ≤ b := by
  simp [strLe]

theorem keyLe_total (s : Str) (rev : Bool) (a b : Rec) :
    keyLe s rev a b = true ∨ keyLe s rev b a = true := by
  unfold keyLe
  cases rev <;> simp only [if_true, if_false, Bool.false_eq_true, strLe_iff] <;>
    exact le_total _ _

theorem keyLe_trans (s : Str) (rev : Bool) {a b c : Rec}
    (h1 : keyLe s rev a b = true) (h2 : keyLe s rev b c = true) :
    keyLe s rev a c = true := by
  cases rev
  · simp only [keyLe, if_false, Bool.false_eq_true, strLe_iff] at h1 h2 ⊢
    exact le_trans h1 h2
  · simp only [keyLe, if_true, strLe_iff] at h1 h2 ⊢
    exact le_trans h2 h1

theorem orderedInsertB_perm (le : α → α → Bool) (a : α) :
    ∀ l : List α, (orderedInsertB le a l).Perm (a :: l)
  | [] => List.Perm.refl _
  | b :: l => by
    rw [orderedInsertB]
    by_cases h : le a b = true
    · rw [if_pos h]
    · rw [if_neg h]
      exact ((orderedInsertB_perm le a l).cons b).trans (List.Perm.swap a b l)

theorem pySorted_perm (le : α → α → Bool) : ∀ l : List α, (pySorted le l).Perm l
  | [] => List.Perm.refl _
  | a :: l => by
    rw [show pySorted le (a :: l) = orderedInsertB le a (pySorted le l) from rfl]
    exact (orderedInsertB_perm le a (pySorted le l)).trans ((pySorted_perm le l).cons a)

theorem orderedInsertB_pairwise {le : α → α → Bool}
    (htot : ∀ a b, le a b = true ∨ le b a = true)
    (htr : ∀ {a b c}, le a b = true → le b c = true → le a c = true) (a : α) :
    ∀ {l : List α}, List.Pairwise (fun x y => le x y = true) l →
      List.Pairwise (fun x y => le x y = true) (orderedInsertB le a l)
  | [], _ => by simp [orderedInsertB]
  | b :: l, h => by
    rw [orderedInsertB]
    rcases List.pairwise_cons.mp h with ⟨hb, hl⟩
    by_cases hab : le a b = true
    · rw [if_pos hab]
      refine List.pairwise_cons.mpr ⟨?_, h⟩
      intro c hc
      rcases List.mem_cons.mp hc with rfl | hc
      · exact hab
      · exact htr hab (hb c hc)
    · rw [if_neg hab]
      have hba : le b a = true := (htot a b).resolve_left hab
      refine List.pairwise_cons.mpr ⟨?_, orderedInsertB_pairwise htot htr a hl⟩
      intro c hc
      rcases List.mem_cons.mp ((orderedInsertB_perm le a l).mem_iff.mp hc) with rfl | hc
      · exact hba
      · exact hb c hc

theorem pySorted_pairwise {le : α → α → Bool}
    (htot : ∀ a b, le a b = true ∨ le b a = true)
    (htr : ∀ {a b c}, le a b = true → le b c = true → le a c = true) :
    ∀ l : List α, List.Pairwise (fun x y => le x y = true) (pySorted le l)
  | [] => List.Pairwise.nil
  | a :: l => by
    rw [show pySorted le (a :: l) = orderedInsertB le a (pySorted le l) from rfl]
    exact orderedInsertB_pairwise htot htr a (pySorted_pairwise htot htr l)

/-- C6: the sorter applies the declared sort keys in reverse-declaration
order as a composition of stable sorts on each key's string value, so the
first-declared key is dominant; a key suffixed with the descending marker
sorts in reverse order; sorting ids 3,1,2 by id ascending yields 1,2,3, by
id descending 3,2,1, and records with equal key values keep their prior
relative order; for a single ascending key present in all records the
result is a permutation of the input that is pairwise ordered by the key. -/
theorem C6_sort :
    (sortRecords ["id".data]
        [[("id".data, "3".data)], [("id".data, "1".data)], [("id".data, "2".data)]]
      = ([[("id".data, "1".data)], [("id".data, "2".data)], [("id".data, "3".data)]],
          [])) ∧
    (sortRecords ["id-".data]
        [[("id".data, "3".data)], [("id".data, "1".data)], [("id".data, "2".data)]]
      = ([[("id".data, "3".data)], [("id".data, "2".data)], [("id".data, "1".data)]],
          [])) ∧
    (sortRecords ["id".data]
        [[("id".data, "2".data), ("x".data, "a".data)],
         [("id".data, "1".data), ("x".data, "b".data)],
         [("id".data, "1".data), ("x".data, "c".data)]]
      = ([[("id".data, "1".data), ("x".data, "b".data)],
          [("id".data, "1".data), ("x".data, "c".data)],
          [("id".data, "2".data), ("x".data, "a".data)]], [])) ∧
    (sortRecords ["a".data, "b".data]
        [[("a".data, "2".data), ("b".data, "1".data)],
         [("a".data, "1".data), ("b".data, "2".data)],
         [("a".data, "1".data), ("b".data, "1".data)]]
      = ([[("a".data, "1".data), ("b".data, "1".data)],
          [("a".data, "1".data), ("b".data, "2".data)],
          [("a".data, "2".data), ("b".data, "1".data)]], [])) ∧
    ∀ (k : Str) (recs : List Rec),
      endsC '-' k = false →
      (∀ r ∈ recs, (getv r k).isSome = true) →
      (sortRecords [k] recs).2 = [] ∧
      (sortRecords [k] recs).1.Perm recs ∧
      List.Pairwise
        (fun a b => strLe ((getv a k).getD []) ((getv b k).getD []) = true)
        (sortRecords [k] recs).1 := by
  refine ⟨by decide, by decide, by decide, by decide, ?_⟩
  intro k recs hnd hall
  have hstep : sortRecords [k] recs = (pySorted (keyLe k false) recs, []) := by
    simp only [sortRecords, List.reverse_singleton, List.foldl_cons, List.foldl_nil,
      sortFold, sortStep, hnd, Bool.false_eq_true, if_false]
    rw [if_pos (List.all_eq_true.mpr hall)]
  rw [hstep]
  refine ⟨rfl, pySorted_perm _ _, ?_⟩
  have hp := pySorted_pairwise (keyLe_total k false)
    (fun h1 h2 => keyLe_trans k false h1 h2) recs
  refine hp.imp ?_
  intro a b h
  simpa [keyLe] using h

/-- Witness for C6's general part at a concrete input. -/
theorem C6_sort_witness :
    (sortRecords ["id".data] [[("id".data, "3".data)], [("id".data, "1".data)]]).2
        = [] ∧
    (sortRecords ["id".data] [[("id".data, "3".data)], [("id".data, "1".data)]]).1.Perm
      [[("id".data, "3".data)], [("id".data, "1".data)]] :=
  ⟨(C6_sort.2.2.2.2 "id".data _ (by decide) (by decide)).1,
   (C6_sort.2.2.2.2 "id".data _ (by decide) (by decide)).2.1⟩

/-! ### Unknown sort keys are skipped -/

theorem sortStep_fst_warnings (recs : List Rec) (w1 w2 : List Str) (s : Str) :
    (sortStep recs w1 s).1 = (sortStep recs w2 s).1 := by
  simp only [sortStep]
  by_cases h : (recs.all fun r =>
      (getv r (if endsC '-' s = true then s.dropLast else s)).isSome) = true
  · rw [if_pos h, if_pos h]
  · rw [if_neg h, if_neg h]

theorem sortStep_snd_append (recs : List Rec) (w : List Str) (s : Str) :
    ∃ w', (sortStep recs w s).2 = w ++ w' := by
  simp only [sortStep]
  by_cases h : (recs.all fun r =>
      (getv r (if endsC '-' s = true then s.dropLast else s)).isSome) = true
  · exact ⟨[], by rw [if_pos h]; simp⟩
  · exact ⟨[warnMsg (if endsC '-' s = true then s.dropLast else s)], by rw [if_neg h]⟩

theorem sortStep_fst_perm (recs : List Rec) (w : List Str) (s : Str) :
    (sortStep recs w s).1.Perm recs := by
  simp only [sortStep]
  by_cases h : (recs.all fun r =>
      (getv r (if endsC '-' s = true then s.dropLast else s)).isSome) = true
  · rw [if_pos h]
    exact pySorted_perm _ _
  · rw [if_neg h]

theorem sortFoldl_fst :
    ∀ (ls : List Str) (recs : List Rec) (w1 w2 : List Str),
      (ls.foldl sortFold (recs, w1)).1 = (ls.foldl sortFold (recs, w2)).1
  | [], _, _, _ => rfl
  | s :: ls, recs, w1, w2 => by
    simp only [List.foldl_cons, sortFold]
    have h1 := sortStep_fst_warnings recs w1 w2 s
    have key : sortStep recs w2 s = ((sortStep recs w1 s).1, (sortStep recs w2 s).2) :=
      Prod.ext_iff.mpr ⟨h1.symm, rfl⟩
    rw [key]
    exact sortFoldl_fst ls (sortStep recs w1 s).1 (sortStep recs w1 s).2
      (sortStep recs w2 s).2

theorem sortFoldl_warn_append :
    ∀ (ls : List Str) (recs : List Rec) (w : List Str),
      ∃ w', (ls.foldl sortFold (recs, w)).2 = w ++ w'
  | [], _, w => ⟨[], by simp⟩
  | s :: ls, recs, w => by
    simp only [List.foldl_cons, sortFold]
    obtain ⟨w1, hw1⟩ := sortStep_snd_append recs w s
    obtain ⟨w2, hw2⟩ := sortFoldl_warn_append ls (sortStep recs w s).1 (w ++ w1)
    refine ⟨w1 ++ w2, ?_⟩
    have heq : sortStep recs w s = ((sortStep recs w s).1, w ++ w1) :=
      Prod.ext_iff.mpr ⟨rfl, hw1⟩
    rw [heq, hw2, List.append_assoc]

theorem sortFoldl_fst_perm :
    ∀ (ls : List Str) (recs : List Rec) (w : List Str),
      ((ls.foldl sortFold (recs, w)).1).Perm recs
  | [], _, _ => List.Perm.refl _
  | s :: ls, recs, w => by
    simp only [List.foldl_cons, sortFold]
    have h2 := sortFoldl_fst_perm ls (sortStep recs w s).1 (sortStep recs w s).2
    exact h2.trans (sortStep_fst_perm recs w s)

/-- C7: a sort key (with its descending marker stripped) that is missing
from the records is recoverable: the warning naming the key is emitted, the
key is skipped leaving the order produced by the previously applied keys
intact, and the remaining keys are still applied. -/
theorem C7_unknown_key (ks1 ks2 : List Str) (bad : Str) (recs : List Rec)
    (hne : recs ≠ [])
    (hmiss : ∀ r ∈ recs,
      (getv r (if endsC '-' bad = true then bad.dropLast else bad)).isSome = false) :
    (sortRecords (ks1 ++ bad :: ks2) recs).1 = (sortRecords (ks1 ++ ks2) recs).1 ∧
    warnMsg (if endsC '-' bad = true then bad.dropLast else bad)
      ∈ (sortRecords (ks1 ++ bad :: ks2) recs).2 := by
  have hrev1 : (ks1 ++ bad :: ks2).reverse = ks2.reverse ++ bad :: ks1.reverse := by
    simp
  have hrev2 : (ks1 ++ ks2).reverse = ks2.reverse ++ ks1.reverse := by
    simp
  set A := ks2.reverse.foldl sortFold (recs, ([] : List Str)) with hA
  have hperm : A.1.Perm recs := sortFoldl_fst_perm _ _ _
  have hAne : A.1 ≠ [] := by
    intro h
    rw [h] at hperm
    exact hne (hperm.symm.eq_nil)
  have hAmiss : ∀ r ∈ A.1,
      (getv r (if endsC '-' bad = true then bad.dropLast else bad)).isSome = false :=
    fun r hr => hmiss r (hperm.mem_iff.mp hr)
  have hallf : (A.1.all fun r =>
      (getv r (if endsC '-' bad = true then bad.dropLast else bad)).isSome) = false := by
    obtain ⟨r0, t, he⟩ := List.exists_cons_of_ne_nil hAne
    rw [he, List.all_cons, hAmiss r0 (he ▸ List.mem_cons_self r0 t)]
    rfl
  have hbad : sortFold A bad
      = (A.1, A.2 ++ [warnMsg (if endsC '-' bad = true then bad.dropLast else bad)]) := by
    show sortStep A.1 A.2 bad = _
    simp only [sortStep, hallf, Bool.false_eq_true, if_false]
  constructor
  · rw [sortRecords, sortRecords, hrev1, hrev2, List.foldl_append, List.foldl_append,
      List.foldl_cons, ← hA, hbad]
    exact sortFoldl_fst ks1.reverse A.1 _ A.2
  · rw [sortRecords, hrev1, List.foldl_append, List.foldl_cons, ← hA, hbad]
    obtain ⟨w', hw'⟩ := sortFoldl_warn_append ks1.reverse A.1
      (A.2 ++ [warnMsg (if endsC '-' bad = true then bad.dropLast else bad)])
    rw [hw']
    simp

/-- Witness for C7 at a concrete input. -/
theorem C7_unknown_key_witness :
    (sortRecords ["id".data, "nope".data] [[("id".data, "1".data)]]).1
        = (sortRecords ["id".data] [[("id".data, "1".data)]]).1 ∧
    warnMsg "nope".data
      ∈ (sortRecords ["id".data, "nope".data] [[("id".data, "1".data)]]).2 := by
  have h := C7_unknown_key ["id".data] [] "nope".data [[("id".data, "1".data)]]
    (by decide) (by decide)
  have e : (if endsC '-' ("nope".data) = true then ("nope".data).dropLast
      else "nope".data) = "nope".data := by decide
  rw [e] at h
  exact h

/-- C7 counterexample: with no records at all, a missing key produces no
warning — `sorted` never evaluates the key function on an empty list, so
the KeyError branch is never reached. -/
theorem C7_counterexample :
    sortRecords ["nope".data] ([] : List Rec) = ([], []) ∧
    ¬ warnMsg "nope".data ∈ (sortRecords ["nope".data] ([] : List Rec)).2 := by
  decide

/-! ### Timestamps (xacct.py lines 183-245) -/

/-- Value of a two-digit numeral. -/
def val2 (a b : Char) : Nat :=
  10 * (a.toNat - 48) + (b.toNat - 48)

/-- Two-digit field of a timestamp: returns its value and the rest. -/
def parse2 : Str → Option (Nat × Str)
  | a :: b :: r =>
    if a.isDigit && b.isDigit then some (val2 a b, r) else none
  | _ => none

/-- A literal separator character. -/
def lit (c : Char) : Str → Option Str
  | a :: r => if a = c then some r else none
  | _ => none

/-- A parsed date-time value. -/
structure DT where
  y : Nat
  mo : Nat
  d : Nat
  h : Nat
  mi : Nat
  s : Nat
deriving DecidableEq, Repr

def isLeap (y : Nat) : Bool :=
  y % 4 = 0 && (y % 100 ≠ 0 || y % 400 = 0)

def daysInMonth (y mo : Nat) : Nat :=
  if mo = 2 then (if isLeap y then 29 else 28)
  else if mo = 4 || mo = 6 || mo = 9 || mo = 11 then 30
  else 31

/-- The calendar checks done by the datetime constructor. -/
def validDT (t : DT) : Bool :=
  1 ≤ t.y && 1 ≤ t.mo && t.mo ≤ 12 && 1 ≤ t.d && t.d ≤ daysInMonth t.y t.mo &&
    t.h ≤ 23 && t.mi ≤ 59 && t.s ≤ 59

/-- Model of `datetime.strptime(x, '%Y-%m-%dT%H:%M:%S')` on the canonical
zero-padded 19-character form produced by sacct (strptime itself also
tolerates un-padded fields, which this data never contains); `none` models
the ValueError on anything else. -/
def parseDT (l : Str) : Option DT := do
  let (yh, r) ← parse2 l
  let (yl, r) ← parse2 r
  let r ← lit '-' r
  let (mo, r) ← parse2 r
  let r ← lit '-' r
  let (d, r) ← parse2 r
  let r ← lit 'T' r
  let (h, r) ← parse2 r
  let r ← lit ':' r
  let (mi, r) ← parse2 r
  let r ← lit ':' r
  let (s, r) ← parse2 r
  match r with
  | [] =>
    let t : DT := ⟨100 * yh + yl, mo, d, h, mi, s⟩
    if validDT t then some t else none
  | _ => none

/-- Python `max` over a nonempty list: keep the current value unless a
strictly greater one appears. -/
def pyMaxStr : Str → List Str → Str
  | cur, [] => cur
  | cur, x :: xs => pyMaxStr (if decide (cur < x) then x else cur) xs

/-- Embedding of `get_state_time` (xacct.py lines 231-245): drop the
timepoints that fail to parse, return the empty string when none is left,
the maximum otherwise. -/
def get_state_time (timepoints : List Str) : Str :=
  let dt := timepoints.filter (fun x => (parseDT x).isSome)
  match dt with
  | [] => []
  | x :: xs => pyMaxStr x xs

/-- Strict chronological comparison of parsed date-times. -/
def dtLt (a b : DT) : Bool :=
  if a.y ≠ b.y then decide (a.y < b.y)
  else if a.mo ≠ b.mo then decide (a.mo < b.mo)
  else if a.d ≠ b.d then decide (a.d < b.d)
  else if a.h ≠ b.h then decide (a.h < b.h)
  else if a.mi ≠ b.mi then decide (a.mi < b.mi)
  else decide (a.s < b.s)

/-- Chronological comparison of parsed date-times. -/
def dtLe (a b : DT) : Bool :=
  !dtLt b a

example : parseDT "2024-05-01T10:00:00".data = some ⟨2024, 5, 1, 10, 0, 0⟩ := by decide
example : parseDT "not-a-date".data = none := by decide
example : parseDT "2024-02-30T10:00:00".data = none := by decide
example : parseDT "2024-02-29T10:00:00".data = some ⟨2024, 2, 29, 10, 0, 0⟩ := by decide
example : parseDT "2023-02-29T10:00:00".data = none := by decide
example : get_state_time ["2024-05-01T10:00:00".data, "2024-05-01T09:00:00".data,
    "not-a-date".data] = "2024-05-01T10:00:00".data := by decide

/-! ### Lexicographic order on canonical timestamps is chronological -/

theorem char_lt_iff_toNat (a b : Char) : a < b ↔ a.toNat < b.toNat :=
  ⟨fun h => Char.lt_iff_val_lt_val.mp h, fun h => Char.lt_iff_val_lt_val.mpr h⟩

theorem char_eq_iff_toNat (a b : Char) : a = b ↔ a.toNat = b.toNat :=
  ⟨fun h => by rw [h], fun h => Char.eq_of_val_eq (UInt32.ext h)⟩

theorem digit_bounds {c : Char} (h : c.isDigit = true) : 48 ≤ c.toNat ∧ c.toNat ≤ 57 := by
  rw [Char.isDigit, Bool.and_eq_true] at h
  obtain ⟨h1, h2⟩ := h
  constructor
  · have : (48 : UInt32) ≤ c.val := by simpa using h1
    exact this
  · have : c.val ≤ (57 : UInt32) := by simpa using h2
    exact this

theorem lt_cons_iff {a b : Char} {l1 l2 : Str} :
    (a :: l1 < b :: l2) ↔ a < b ∨ (a = b ∧ l1 < l2) := by
  show List.Lex _ _ _ ↔ _
  constructor
  · intro h
    cases h with
    | cons h => exact .inr ⟨rfl, h⟩
    | rel h => exact .inl h
  · rintro (h | ⟨rfl, h⟩)
    · exact .rel h
    · exact .cons h

theorem lt_cons_same {c : Char} {l1 l2 : Str} : (c :: l1 < c :: l2) ↔ l1 < l2 := by
  rw [lt_cons_iff]
  simp [lt_irrefl]

theorem lt_nil_nil : ¬ (([] : Str) < []) := by
  intro h
  cases h

theorem lt_digits2 {a b c d : Char} {l1 l2 : Str}
    (ha : a.isDigit = true) (hb : b.isDigit = true)
    (hc : c.isDigit = true) (hd : d.isDigit = true) :
    (a :: b :: l1 < c :: d :: l2) ↔
      (val2 a b < val2 c d ∨ (val2 a b = val2 c d ∧ l1 < l2)) := by
  obtain ⟨ha1, ha2⟩ := digit_bounds ha
  obtain ⟨hb1, hb2⟩ := digit_bounds hb
  obtain ⟨hc1, hc2⟩ := digit_bounds hc
  obtain ⟨hd1, hd2⟩ := digit_bounds hd
  rw [lt_cons_iff, lt_cons_iff, char_lt_iff_toNat, char_lt_iff_toNat,
    char_eq_iff_toNat, char_eq_iff_toNat]
  unfold val2
  constructor
  · rintro (h | ⟨he, h | ⟨he2, hl⟩⟩)
    · left; omega
    · left; omega
    · right; exact ⟨by omega, hl⟩
  · rintro (h | ⟨he, hl⟩)
    · by_cases hac : a.toNat = c.toNat
      · exact .inr ⟨hac, .inl (by omega)⟩
      · exact .inl (by omega)
    · exact .inr ⟨by omega, .inr ⟨by omega, hl⟩⟩

theorem combine2 {vh vl vh' vl' : Nat} (h1 : vl ≤ 99) (h2 : vl' ≤ 99) {P : Prop} :
    (vh < vh' ∨ (vh = vh' ∧ (vl < vl' ∨ (vl = vl' ∧ P)))) ↔
      (100 * vh + vl < 100 * vh' + vl' ∨ (100 * vh + vl = 100 * vh' + vl' ∧ P)) := by
  constructor
  · rintro (h | ⟨rfl, h | ⟨rfl, hp⟩⟩)
    · left; omega
    · left; omega
    · right; exact ⟨rfl, hp⟩
  · rintro (h | ⟨he, hp⟩)
    · by_cases hv : vh = vh'
      · subst hv
        exact .inr ⟨rfl, .inl (by omega)⟩
      · exact .inl (by omega)
    · have hv : vh = vh' ∧ vl = vl' := by omega
      exact .inr ⟨hv.1, .inr ⟨hv.2, hp⟩⟩

theorem val2_le_99 {a b : Char} (ha : a.isDigit = true) (hb : b.isDigit = true) :
    val2 a b ≤ 99 := by
  obtain ⟨h1, h2⟩ := digit_bounds ha
  obtain ⟨h3, h4⟩ := digit_bounds hb
  unfold val2
  omega

theorem dtLt_iff {a b : DT} : dtLt a b = true ↔
    (a.y < b.y ∨ (a.y = b.y ∧ (a.mo < b.mo ∨ (a.mo = b.mo ∧ (a.d < b.d ∨ (a.d = b.d ∧
      (a.h < b.h ∨ (a.h = b.h ∧ (a.mi < b.mi ∨ (a.mi = b.mi ∧ a.s < b.s)))))))))) := by
  unfold dtLt
  split_ifs with h1 h2 h3 h4 h5 <;> simp <;> omega

theorem parse2_inv {l : Str} {n : Nat} {r : Str} (h : parse2 l = some (n, r)) :
    ∃ a b, l = a :: b :: r ∧ a.isDigit = true ∧ b.isDigit = true ∧ n = val2 a b := by
  rcases l with _ | ⟨a, _ | ⟨b, r'⟩⟩
  · simp [parse2] at h
  · simp [parse2] at h
  · rw [parse2] at h
    by_cases hd : (a.isDigit && b.isDigit) = true
    · rw [if_pos hd] at h
      have h' := Option.some.inj h
      rw [Prod.mk.injEq] at h'
      obtain ⟨hn, hr⟩ := h'
      rw [Bool.and_eq_true] at hd
      exact ⟨a, b, by rw [hr], hd.1, hd.2, hn.symm⟩
    · rw [if_neg hd] at h
      cases h

theorem lit_inv {c : Char} {l r : Str} (h : lit c l = some r) : l = c :: r := by
  rcases l with _ | ⟨a, t⟩
  · simp [lit] at h
  · rw [lit] at h
    by_cases ha : a = c
    · rw [if_pos ha] at h
      rw [ha, Option.some.inj h]
    · rw [if_neg ha] at h
      cases h

theorem parseDT_inv {l : Str} {t : DT} (h : parseDT l = some t) :
    ∃ a1 a2 a3 a4 m1 m2 d1 d2 h1 h2 i1 i2 s1 s2 : Char,
      l = [a1, a2, a3, a4, '-', m1, m2, '-', d1, d2, 'T',
            h1, h2, ':', i1, i2, ':', s1, s2] ∧
      a1.isDigit = true ∧ a2.isDigit = true ∧ a3.isDigit = true ∧ a4.isDigit = true ∧
      m1.isDigit = true ∧ m2.isDigit = true ∧ d1.isDigit = true ∧ d2.isDigit = true ∧
      h1.isDigit = true ∧ h2.isDigit = true ∧ i1.isDigit = true ∧ i2.isDigit = true ∧
      s1.isDigit = true ∧ s2.isDigit = true ∧
      t = ⟨100 * val2 a1 a2 + val2 a3 a4, val2 m1 m2, val2 d1 d2,
            val2 h1 h2, val2 i1 i2, val2 s1 s2⟩ ∧
      validDT t = true := by
  rw [parseDT] at h
  rcases hp1 : parse2 l with _ | ⟨yh, r1⟩
  · rw [hp1] at h; simp at h
  rw [hp1] at h
  simp only [Option.bind_eq_bind, Option.some_bind] at h
  rcases hp2 : parse2 r1 with _ | ⟨yl, r2⟩
  · rw [hp2] at h; simp at h
  rw [hp2] at h
  simp only [Option.bind_eq_bind, Option.some_bind] at h
  rcases hl1 : lit '-' r2 with _ | r3
  · rw [hl1] at h; simp at h
  rw [hl1] at h
  simp only [Option.bind_eq_bind, Option.some_bind] at h
  rcases hp3 : parse2 r3 with _ | ⟨mov, r4⟩
  · rw [hp3] at h; simp at h
  rw [hp3] at h
  simp only [Option.bind_eq_bind, Option.some_bind] at h
  rcases hl2 : lit '-' r4 with _ | r5
  · rw [hl2] at h; simp at h
  rw [hl2] at h
  simp only [Option.bind_eq_bind, Option.some_bind] at h
  rcases hp4 : parse2 r5 with _ | ⟨ddv, r6⟩
  · rw [hp4] at h; simp at h
  rw [hp4] at h
  simp only [Option.bind_eq_bind, Option.some_bind] at h
  rcases hl3 : lit 'T' r6 with _ | r7
  · rw [hl3] at h; simp at h
  rw [hl3] at h
  simp only [Option.bind_eq_bind, Option.some_bind] at h
  rcases hp5 : parse2 r7 with _ | ⟨hhv, r8⟩
  · rw [hp5] at h; simp at h
  rw [hp5] at h
  simp only [Option.bind_eq_bind, Option.some_bind] at h
  rcases hl4 : lit ':' r8 with _ | r9
  · rw [hl4] at h; simp at h
  rw [hl4] at h
  simp only [Option.bind_eq_bind, Option.some_bind] at h
  rcases hp6 : parse2 r9 with _ | ⟨miv, r10⟩
  · rw [hp6] at h; simp at h
  rw [hp6] at h
  simp only [Option.bind_eq_bind, Option.some_bind] at h
  rcases hl5 : lit ':' r10 with _ | r11
  · rw [hl5] at h; simp at h
  rw [hl5] at h
  simp only [Option.bind_eq_bind, Option.some_bind] at h
  rcases hp7 : parse2 r11 with _ | ⟨ssv, r12⟩
  · rw [hp7] at h; simp at h
  rw [hp7] at h
  simp only [Option.bind_eq_bind, Option.some_bind] at h
  rcases r12 with _ | ⟨c, rest⟩
  · rcases hvd : validDT ⟨100 * yh + yl, mov, ddv, hhv, miv, ssv⟩ with _ | _
    · simp only [hvd, Bool.false_eq_true, if_false] at h
      cases h
    · simp only [hvd, if_true] at h
      have ht : t = ⟨100 * yh + yl, mov, ddv, hhv, miv, ssv⟩ := (Option.some.inj h).symm
      obtain ⟨a1, a2, he1, hda1, hda2, hv1⟩ := parse2_inv hp1
      obtain ⟨a3, a4, he2, hda3, hda4, hv2⟩ := parse2_inv hp2
      have he3 := lit_inv hl1
      obtain ⟨m1, m2, he4, hdm1, hdm2, hv3⟩ := parse2_inv hp3
      have he5 := lit_inv hl2
      obtain ⟨d1, d2, he6, hdd1, hdd2, hv4⟩ := parse2_inv hp4
      have he7 := lit_inv hl3
      obtain ⟨hc1, hc2, he8, hdh1, hdh2, hv5⟩ := parse2_inv hp5
      have he9 := lit_inv hl4
      obtain ⟨i1, i2, he10, hdi1, hdi2, hv6⟩ := parse2_inv hp6
      have he11 := lit_inv hl5
      obtain ⟨s1, s2, he12, hds1, hds2, hv7⟩ := parse2_inv hp7
      refine ⟨a1, a2, a3, a4, m1, m2, d1, d2, hc1, hc2, i1, i2, s1, s2, ?_,
        hda1, hda2, hda3, hda4, hdm1, hdm2, hdd1, hdd2, hdh1, hdh2,
        hdi1, hdi2, hds1, hds2, ?_, ?_⟩
      · rw [he1, he2, he3, he4, he5, he6, he7, he8, he9, he10, he11, he12]
      · rw [ht, hv1, hv2, hv3, hv4, hv5, hv6, hv7]
      · rw [ht]
        exact hvd
  · simp at h

theorem parseDT_lt_iff {sa sb : Str} {ta tb : DT}
    (hA : parseDT sa = some ta) (hB : parseDT sb = some tb) :
    (sa < sb) ↔ dtLt ta tb = true := by
  obtain ⟨a1, a2, a3, a4, m1, m2, d1, d2, h1, h2, i1, i2, s1, s2, hEA, da1, da2, da3, da4,
    dm1, dm2, dd1, dd2, dh1, dh2, di1, di2, ds1, ds2, htA, _⟩ := parseDT_inv hA
  obtain ⟨b1, b2, b3, b4, n1, n2, e1, e2, g1, g2, j1, j2, u1, u2, hEB, db1, db2, db3, db4,
    dn1, dn2, de1, de2, dg1, dg2, dj1, dj2, du1, du2, htB, _⟩ := parseDT_inv hB
  subst hEA hEB htA htB
  rw [dtLt_iff]
  rw [lt_digits2 da1 da2 db1 db2]
  rw [lt_digits2 da3 da4 db3 db4]
  rw [lt_cons_same]
  rw [lt_digits2 dm1 dm2 dn1 dn2]
  rw [lt_cons_same]
  rw [lt_digits2 dd1 dd2 de1 de2]
  rw [lt_cons_same]
  rw [lt_digits2 dh1 dh2 dg1 dg2]
  rw [lt_cons_same]
  rw [lt_digits2 di1 di2 dj1 dj2]
  rw [lt_cons_same]
  rw [lt_digits2 ds1 ds2 du1 du2]
  rw [combine2 (val2_le_99 da3 da4) (val2_le_99 db3 db4)]
  have hnil : (([] : Str) < []) = False := by
    simp only [eq_iff_iff, iff_false]
    exact lt_nil_nil
  rw [hnil]
  simp

theorem parseDT_le_iff {sa sb : Str} {ta tb : DT}
    (hA : parseDT sa = some ta) (hB : parseDT sb = some tb) :
    (sa ≤ sb) ↔ dtLe ta tb = true := by
  rw [← not_lt, parseDT_lt_iff hB hA]
  unfold dtLe
  cases dtLt tb ta <;> simp

theorem pyMaxStr_spec :
    ∀ (xs : List Str) (cur : Str),
      (pyMaxStr cur xs = cur ∨ pyMaxStr cur xs ∈ xs) ∧
      cur ≤ pyMaxStr cur xs ∧ ∀ x ∈ xs, x ≤ pyMaxStr cur xs
  | [], cur => ⟨.inl rfl, le_refl _, by simp⟩
  | x :: xs, cur => by
    rw [pyMaxStr]
    obtain ⟨hmem, hge, hall⟩ := pyMaxStr_spec xs (if decide (cur < x) then x else cur)
    by_cases hc : cur < x
    · rw [if_pos (decide_eq_true hc)] at hmem hge hall ⊢
      refine ⟨?_, le_trans (le_of_lt hc) hge, ?_⟩
      · rcases hmem with h | h
        · exact .inr (by rw [h]; exact List.mem_cons_self x xs)
        · exact .inr (List.mem_cons_of_mem x h)
      · intro z hz
        rcases List.mem_cons.mp hz with rfl | hz
        · exact hge
        · exact hall z hz
    · rw [if_neg (by simpa using hc)] at hmem hge hall ⊢
      refine ⟨?_, hge, ?_⟩
      · rcases hmem with h | h
        · exact .inl h
        · exact .inr (List.mem_cons_of_mem x h)
      · intro z hz
        rcases List.mem_cons.mp hz with rfl | hz
        · exact le_trans (not_lt.mp hc) hge
        · exact hall z hz

/-- C10: get_state_time returns the maximum by lexicographic (equivalently,
on strings that parse, chronological) order among the timepoints that parse
as valid YYYY-MM-DDTHH:MM:SS timestamps, ignoring the rest, and the empty
string when none parse; on the given three-element example it returns the
10:00:00 timestamp. -/
theorem C10_get_state_time :
    get_state_time ["2024-05-01T10:00:00".data, "2024-05-01T09:00:00".data,
        "not-a-date".data] = "2024-05-01T10:00:00".data ∧
    (∀ l : List Str, (∀ x ∈ l, parseDT x = none) → get_state_time l = []) ∧
    (∀ (s1 s2 : Str) (t1 t2 : DT), parseDT s1 = some t1 → parseDT s2 = some t2 →
      ((s1 ≤ s2) ↔ dtLe t1 t2 = true)) ∧
    ∀ (l : List Str) (x : Str), x ∈ l → (parseDT x).isSome = true →
      (parseDT (get_state_time l)).isSome = true ∧
      get_state_time l ∈ l ∧
      (∀ y ∈ l, (parseDT y).isSome = true → y ≤ get_state_time l) := by
  refine ⟨by decide, ?_, ?_, ?_⟩
  · intro l hl
    have hfe : l.filter (fun x => (parseDT x).isSome) = [] := by
      rw [List.filter_eq_nil_iff]
      intro a ha
      simp [hl a ha]
    simp only [get_state_time, hfe]
  · exact fun s1 s2 t1 t2 h1 h2 => parseDT_le_iff h1 h2
  · intro l x hx hps
    have hxf : x ∈ l.filter (fun x => (parseDT x).isSome) :=
      List.mem_filter.mpr ⟨hx, hps⟩
    rcases hf : l.filter (fun x => (parseDT x).isSome) with _ | ⟨h0, hs⟩
    · rw [hf] at hxf
      cases hxf
    · have hres : get_state_time l = pyMaxStr h0 hs := by
        simp only [get_state_time, hf]
      obtain ⟨hmem, _, hall⟩ := pyMaxStr_spec hs h0
      have hresf : pyMaxStr h0 hs ∈ l.filter (fun x => (parseDT x).isSome) := by
        rw [hf]
        rcases hmem with h | h
        · rw [h]
          exact List.mem_cons_self _ _
        · exact List.mem_cons_of_mem _ h
      have hmf := List.mem_filter.mp hresf
      refine ⟨hres ▸ hmf.2, hres ▸ hmf.1, ?_⟩
      intro y hy hpy
      have hyf : y ∈ l.filter (fun x => (parseDT x).isSome) :=
        List.mem_filter.mpr ⟨hy, hpy⟩
      rw [hres]
      rw [hf] at hyf
      rcases List.mem_cons.mp hyf with rfl | hyf
      · exact (pyMaxStr_spec hs _).2.1
      · exact hall y hyf

/-- Witness for C10 at concrete inputs. -/
theorem C10_get_state_time_witness :
    get_state_time ["nope".data] = [] ∧
    "2024-05-01T09:00:00".data ≤
      get_state_time ["2024-05-01T10:00:00".data, "2024-05-01T09:00:00".data] := by
  constructor
  · exact C10_get_state_time.2.1 ["nope".data] (by decide)
  · have h := C10_get_state_time.2.2.2
      ["2024-05-01T10:00:00".data, "2024-05-01T09:00:00".data]
      "2024-05-01T10:00:00".data (by decide) (by decide)
    exact h.2.2 "2024-05-01T09:00:00".data (by decide) (by decide)

/-! ### Timestamp simplification (xacct.py lines 183-228) -/

/-- The current run's date. -/
structure Date where
  y : Nat
  mo : Nat
  d : Nat
deriving DecidableEq, Repr

/-- One attempt of the regex `\d\d\d\d-\d\d-` at the front of the string:
eight characters, digits in positions 0-3 and 5-6, dashes in positions 4
and 7; on a match, return the rest. -/
def matchYM (l : Str) : Option Str :=
  if 8 ≤ l.length ∧ (l.getD 0 ' ').isDigit = true ∧ (l.getD 1 ' ').isDigit = true ∧
      (l.getD 2 ' ').isDigit = true ∧ (l.getD 3 ' ').isDigit = true ∧
      l.getD 4 ' ' = '-' ∧ (l.getD 5 ' ').isDigit = true ∧
      (l.getD 6 ' ').isDigit = true ∧ l.getD 7 ' ' = '-' then
    some (l.drop 8)
  else none

/-- The scan of `re.sub('\d\d\d\d-\d\d-', '', s)`, with a fuel argument to
make the recursion structural; every step consumes at least one character,
so fuel equal to the string's length (as supplied by `subYM`) is never
exhausted. -/
def subYMGo : Nat → Str → Str
  | 0, l => l
  | _ + 1, [] => []
  | fuel + 1, c :: cs =>
    match matchYM (c :: cs) with
    | some rest => subYMGo fuel rest
    | none => c :: subYMGo fuel cs

/-- Python `re.sub('\d\d\d\d-\d\d-', '', s)`: remove every leftmost
non-overlapping occurrence of the year-month-dash pattern. -/
def subYM (l : Str) : Str :=
  subYMGo l.length l

/-- Python `re.sub('T', ' ', s)`. -/
def subT (l : Str) : Str :=
  l.map (fun c => if c = 'T' then ' ' else c)

/-- Python `re.sub('.*T', '', s)`: the greedy match runs through the last
`T` of the string (and there is no further match after it), so the result
is the part after the last `T`, or the whole string when there is none. -/
def subDotStarT (l : Str) : Str :=
  if 'T' ∈ l then (l.reverse.takeWhile (fun c => decide (c ≠ 'T'))).reverse else l

/-- Python `re.sub('Unknown', '', s)`. -/
def removeUnknown : Str → Str
  | 'U' :: 'n' :: 'k' :: 'n' :: 'o' :: 'w' :: 'n' :: rest => removeUnknown rest
  | c :: cs => c :: removeUnknown cs
  | [] => []

/-- Day of the week of a Gregorian date (Sakamoto's method), 0 = Sunday;
agrees with `datetime.strftime('%a')` numbering below. -/
def dayOfWeek (y mo d : Nat) : Nat :=
  let t := [0, 3, 2, 5, 0, 3, 5, 1, 4, 6, 2, 4]
  let y2 := if mo < 3 then y - 1 else y
  (y2 + y2 / 4 - y2 / 100 + y2 / 400 + t.getD (mo - 1) 0 + d) % 7

/-- The `strftime('%a')` weekday names in the C locale. -/
def weekdayAbbrev : Nat → Str
  | 0 => "Sun".data
  | 1 => "Mon".data
  | 2 => "Tue".data
  | 3 => "Wed".data
  | 4 => "Thu".data
  | 5 => "Fri".data
  | 6 => "Sat".data
  | _ => []

/-- Embedding of `simplify_datetime` (xacct.py lines 183-228) on one
column's values: the is_date flags and parsed dates come from strptime,
`same_*` compares every parsed date's component against today's, and each
value is rewritten by the most aggressive simplification whose condition
holds (values that fail to parse get the Unknown placeholder stripped). -/
def simplify_datetime (today : Date) (col : List Str) : List Str :=
  let dates := col.filterMap parseDT
  let same_year := dates.all (fun t => decide (t.y = today.y))
  let same_month := dates.all (fun t => decide (t.mo = today.mo))
  let same_day := dates.all (fun t => decide (t.d = today.d))
  col.map (fun x =>
    match parseDT x with
    | some t =>
      if same_year && same_month && same_day then subDotStarT x
      else if same_year && same_month then
        weekdayAbbrev (dayOfWeek t.y t.mo t.d) ++ ' ' :: subT (subYM x)
      else subT x
    | none => removeUnknown x)

example : simplify_datetime ⟨2024, 5, 2⟩
    ["2024-05-01T10:00:00".data, "2024-05-02T11:30:00".data]
    = ["Wed 01 10:00:00".data, "Thu 02 11:30:00".data] := by decide
example : simplify_datetime ⟨2024, 5, 2⟩
    ["2024-05-02T10:00:00".data, "2024-05-02T11:30:00".data]
    = ["10:00:00".data, "11:30:00".data] := by decide
example : simplify_datetime ⟨2024, 6, 2⟩
    ["2024-05-01T10:00:00".data, "Unknown".data]
    = ["2024-05-01 10:00:00".data, "".data] := by decide

theorem matchYM_noDash {l : Str} (h : ('-' : Char) ∉ l) : matchYM l = none := by
  unfold matchYM
  rw [if_neg]
  rintro ⟨hlen, _, _, _, _, h4, _, _, _⟩
  apply h
  rw [← h4]
  have h4l : (4 : Nat) < l.length := by omega
  rw [List.getD_eq_getElem _ _ h4l]
  exact List.getElem_mem h4l

theorem subYMGo_noDash : ∀ (fuel : Nat) {l : Str}, ('-' : Char) ∉ l → subYMGo fuel l = l
  | 0, _, _ => rfl
  | _ + 1, [], _ => rfl
  | fuel + 1, c :: cs, h => by
    simp only [subYMGo, matchYM_noDash h]
    rw [subYMGo_noDash fuel (fun hc => h (List.mem_cons_of_mem c hc))]

theorem subYM_timestamp {a1 a2 a3 a4 m1 m2 : Char} {rest : Str}
    (ha1 : a1.isDigit = true) (ha2 : a2.isDigit = true) (ha3 : a3.isDigit = true)
    (ha4 : a4.isDigit = true) (hm1 : m1.isDigit = true) (hm2 : m2.isDigit = true)
    (hrest : ('-' : Char) ∉ rest) :
    subYM (a1 :: a2 :: a3 :: a4 :: '-' :: m1 :: m2 :: '-' :: rest) = rest := by
  have hmx : matchYM (a1 :: a2 :: a3 :: a4 :: '-' :: m1 :: m2 :: '-' :: rest)
      = some rest := by
    unfold matchYM
    rw [if_pos]
    · simp
    · refine ⟨by simp, ?_, ?_, ?_, ?_, ?_, ?_, ?_, ?_⟩ <;>
        simp [List.getD, ha1, ha2, ha3, ha4, hm1, hm2]
  have hlen : (a1 :: a2 :: a3 :: a4 :: '-' :: m1 :: m2 :: '-' :: rest : Str).length
      = rest.length + 7 + 1 := by
    simp
  unfold subYM
  rw [hlen]
  simp only [subYMGo, hmx]
  exact subYMGo_noDash _ hrest

theorem subT_noT : ∀ {l : Str}, (∀ c ∈ l, (c = 'T') = False) → subT l = l
  | [], _ => rfl
  | a :: t, h => by
    have ha := h a (List.mem_cons_self a t)
    have ht := subT_noT (fun c hc => h c (List.mem_cons_of_mem a hc))
    have ha2 : ¬ (a = 'T') := fun e => ha ▸ e
    simp only [subT, List.map_cons] at ht ⊢
    rw [if_neg ha2, ht]

/-- C5 counterexample: a column whose values all parse, all share today's
year and month, but not all share today's day-of-month.  The claim predicts
"weekday followed by the time, with the year-month-day numeric prefix
dropped" — i.e. Wed 10:00:00 — but the code's pattern removes only the
year-month prefix, keeping the day-of-month: Wed 01 10:00:00. -/
theorem C5_counterexample :
    (∀ x ∈ (["2024-05-01T10:00:00".data, "2024-05-02T11:30:00".data] : List Str),
      (parseDT x).isSome = true) ∧
    (["2024-05-01T10:00:00".data, "2024-05-02T11:30:00".data].filterMap
      parseDT).all (fun t => decide (t.y = 2024)) = true ∧
    (["2024-05-01T10:00:00".data, "2024-05-02T11:30:00".data].filterMap
      parseDT).all (fun t => decide (t.mo = 5)) = true ∧
    (["2024-05-01T10:00:00".data, "2024-05-02T11:30:00".data].filterMap
      parseDT).all (fun t => decide (t.d = 2)) = false ∧
    simplify_datetime ⟨2024, 5, 2⟩
        ["2024-05-01T10:00:00".data, "2024-05-02T11:30:00".data]
      = ["Wed 01 10:00:00".data, "Thu 02 11:30:00".data] ∧
    simplify_datetime ⟨2024, 5, 2⟩
        ["2024-05-01T10:00:00".data, "2024-05-02T11:30:00".data]
      ≠ ["Wed 10:00:00".data, "Thu 11:30:00".data] := by
  decide

/-- C5 (amended): for a timestamp column whose values all parse in the
fixed format and all share today's year and today's month but not all share
today's day-of-month, simplification replaces each value with a
three-letter weekday name followed by the day-of-month and the time — the
year-month numeric prefix is dropped, the day-of-month retained. -/
theorem C5_simplify_datetime (today : Date) (col : List Str)
    (hall : ∀ x ∈ col, (parseDT x).isSome = true)
    (hy : (col.filterMap parseDT).all (fun t => decide (t.y = today.y)) = true)
    (hm : (col.filterMap parseDT).all (fun t => decide (t.mo = today.mo)) = true)
    (hd : (col.filterMap parseDT).all (fun t => decide (t.d = today.d)) = false) :
    simplify_datetime today col = col.map (fun x =>
      match parseDT x with
      | some t => weekdayAbbrev (dayOfWeek t.y t.mo t.d) ++
          ' ' :: ((x.drop 8).take 2 ++ ' ' :: x.drop 11)
      | none => x) := by
  simp only [simplify_datetime, hy, hm, hd, Bool.true_and, Bool.and_false,
    Bool.false_eq_true, if_false, if_true]
  apply List.map_congr_left
  intro x hx
  rcases hpx : parseDT x with _ | t
  · have := hall x hx
    rw [hpx] at this
    cases this
  · simp only [hpx]
    obtain ⟨a1, a2, a3, a4, m1, m2, d1, d2, hc1, hc2, i1, i2, s1, s2, hex,
      da1, da2, da3, da4, dm1, dm2, dd1, dd2, dh1, dh2, di1, di2, ds1, ds2,
      htx, _⟩ := parseDT_inv hpx
    subst hex
    have hnot : ∀ c : Char, c.isDigit = true → ¬ (('-' : Char) = c) := by
      intro c hc e
      rw [← e] at hc
      exact absurd hc (by decide)
    have hnd : ('-' : Char) ∉
        ([d1, d2, 'T', hc1, hc2, ':', i1, i2, ':', s1, s2] : Str) := by
      intro hmem
      simp only [List.mem_cons, List.not_mem_nil, or_false] at hmem
      rcases hmem with h | h | h | h | h | h | h | h | h | h | h
      · exact hnot d1 dd1 h
      · exact hnot d2 dd2 h
      · exact absurd h (by decide)
      · exact hnot hc1 dh1 h
      · exact hnot hc2 dh2 h
      · exact absurd h (by decide)
      · exact hnot i1 di1 h
      · exact hnot i2 di2 h
      · exact absurd h (by decide)
      · exact hnot s1 ds1 h
      · exact hnot s2 ds2 h
    rw [show ([a1, a2, a3, a4, '-', m1, m2, '-', d1, d2, 'T',
        hc1, hc2, ':', i1, i2, ':', s1, s2] : Str)
        = a1 :: a2 :: a3 :: a4 :: '-' :: m1 :: m2 :: '-' ::
          [d1, d2, 'T', hc1, hc2, ':', i1, i2, ':', s1, s2] from rfl]
    rw [subYM_timestamp da1 da2 da3 da4 dm1 dm2 hnd]
    have hifd : ∀ c : Char, c.isDigit = true → (if c = 'T' then ' ' else c) = c := by
      intro c hc
      rw [if_neg (fun e => (char_ne_of_digit (u := 'T') hc (by decide)) ▸ e)]
    have hTs : subT [d1, d2, 'T', hc1, hc2, ':', i1, i2, ':', s1, s2]
        = [d1, d2, ' ', hc1, hc2, ':', i1, i2, ':', s1, s2] := by
      simp only [subT, List.map_cons, List.map_nil, hifd d1 dd1, hifd d2 dd2,
        hifd hc1 dh1, hifd hc2 dh2, hifd i1 di1, hifd i2 di2, hifd s1 ds1,
        hifd s2 ds2, if_pos rfl, if_true, ite_true,
        if_neg (show ¬ ((':' : Char) = 'T') from by decide)]
    rw [hTs]
    simp

/-- Witness for C5 at the concrete two-value column. -/
theorem C5_simplify_datetime_witness :
    simplify_datetime ⟨2024, 5, 2⟩
        ["2024-05-01T10:00:00".data, "2024-05-02T11:30:00".data]
      = (["2024-05-01T10:00:00".data, "2024-05-02T11:30:00".data] : List Str).map
          (fun x =>
            match parseDT x with
            | some t => weekdayAbbrev (dayOfWeek t.y t.mo t.d) ++
                ' ' :: ((x.drop 8).take 2 ++ ' ' :: x.drop 11)
            | none => x) :=
  C5_simplify_datetime ⟨2024, 5, 2⟩ _ (by decide) (by decide) (by decide) (by decide)

/-! ### Coloring and column widths (xacct.py lines 121-148, 168-181) -/

/-- The ANSI escape character `\033`. -/
def escCh : Char := Char.ofNat 27

/-- Embedding of `colorize` on one value: exact-match status strings get
wrapped in fixed color/reset escape sequences, everything else passes
through. -/
def colorize1 (x : Str) : Str :=
  if x = "FAILED".data then
    (escCh :: "[31m".data) ++ "FAILED".data ++ (escCh :: "[0m".data)
  else if x = "COMPLETED".data then
    (escCh :: "[32m".data) ++ "COMPLETED".data ++ (escCh :: "[0m".data)
  else if x = "RUNNING".data then
    (escCh :: "[94m".data) ++ "RUNNING".data ++ (escCh :: "[0m".data)
  else x

/-- Embedding of `colorize` (xacct.py lines 168-181). -/
def colorize (lst : List Str) : List Str :=
  lst.map colorize1

/-- After `\033[`, consume `[;\d]*` and the final `m` of the pattern
`\033\[[;\d]*m`; returns the rest on a match. -/
def consumeCode : Str → Option Str
  | [] => none
  | c :: rest =>
    if c = 'm' then some rest
    else if c.isDigit || c = ';' then consumeCode rest
    else none

/-- Try the regex `\033\[[;\d]*m` at the start (the character after the
escape): expect `[`, then the code, then `m`. -/
def ansiTail : Str → Option Str
  | '[' :: rest => consumeCode rest
  | _ => none

/-- Scan of `re.sub('\033\[[;\d]*m', '', s)` with a structural fuel
argument; every step consumes at least one character, so fuel equal to the
string's length (as supplied by `stripAnsi`) is never exhausted. -/
def stripAnsiGo : Nat → Str → Str
  | 0, l => l
  | _ + 1, [] => []
  | fuel + 1, c :: cs =>
    if c = escCh then
      match ansiTail cs with
      | some rest => stripAnsiGo fuel rest
      | none => c :: stripAnsiGo fuel cs
    else c :: stripAnsiGo fuel cs

/-- Python `re.sub('\033\[[;\d]*m', '', s)`: remove every leftmost
non-overlapping ANSI color escape. -/
def stripAnsi (l : Str) : Str :=
  stripAnsiGo l.length l

/-- Python `s.lower()`. -/
def lowerStr (l : Str) : Str :=
  l.map Char.toLower

/-- Python `re.sub('\.batch$', '', v)`: drop a trailing `.batch`. -/
def stripBatchEnd (v : Str) : Str :=
  if ".batch".data.isSuffixOf v then v.take (v.length - 6) else v

/-- The measured printable length of the cell in column `i`: strip ANSI
escapes, additionally strip a trailing batch marker in the JobID column,
then take the length. -/
def cellWidth (header : List Str) (i : Nat) (v : Str) : Nat :=
  let v := stripAnsi v
  let v := if lowerStr (header.getD i []) = "jobid".data then stripBatchEnd v else v
  v.length

/-- The inner `for i in range(len(line))` loop of `getColumnWidths`:
elementwise maximum of the running widths and the measured cell widths. -/
def updateRow (header : List Str) : Nat → List Nat → List Str → List Nat
  | i, w :: ws, v :: vs => max w (cellWidth header i v) :: updateRow header (i + 1) ws vs
  | _, ws, _ => ws

/-- The `for line in data` loop of `getColumnWidths`: initialize the widths
from the first line, assert equal lengths (`none` models the assert
failing), optionally colorize, take elementwise maxima. -/
def widthsLoop (header : List Str) (no_color : Bool) :
    List (List Str) → List Nat → Option (List Nat)
  | [], widths => some widths
  | line :: rest, widths =>
    let widths := if widths.length = 0 then List.replicate line.length 0 else widths
    if widths.length = line.length then
      let values := if no_color then line else colorize line
      widthsLoop header no_color rest (updateRow header 0 widths values)
    else none

/-- The header pseudo-row: `collections.OrderedDict` keyed by the header
names keeps the first occurrence of each name, in order. -/
def dedupFirst (l : List Str) : List Str :=
  l.foldl (fun acc x => if x ∈ acc then acc else acc ++ [x]) []

/-- Embedding of `getColumnWidths` (xacct.py lines 121-148). -/
def getColumnWidths (sacct_out : List (List Str)) (header : List Str)
    (space : Nat) (no_color : Bool) : Option (List Nat) :=
  (widthsLoop header no_color (dedupFirst header :: sacct_out) []).map
    (fun ws => ws.map (· + space))

/-- Modelled from the spec's width formula: width per column = the maximum
printable (escape-stripped, batch-marker-stripped in the JobID column)
length across the header and all data rows, plus the fixed padding of 2. -/
def specWidths (sacct_out : List (List Str)) (header : List Str) : List Nat :=
  (List.range header.length).map (fun i =>
    ((header :: sacct_out).map
      (fun row => cellWidth header i (row.getD i []))).foldr max 0 + 2)

example : getColumnWidths [["RUNNING".data, "a".data]]
    ["State".data, "x".data] 2 false = some [9, 3] := by decide
example : getColumnWidths [["RUNNING".data, "a".data]]
    ["State".data, "x".data] 2 true = some [9, 3] := by decide
example : specWidths [["RUNNING".data, "a".data]] ["State".data, "x".data]
    = [9, 3] := by decide
example : getColumnWidths [["123.batch".data]] ["JobID".data] 2 true
    = some [7] := by decide

theorem stripAnsi_colorize1 (v : Str) : stripAnsi (colorize1 v) = stripAnsi v := by
  unfold colorize1
  split_ifs with h1 h2 h3
  · rw [h1]; decide
  · rw [h2]; decide
  · rw [h3]; decide
  · rfl

theorem cellWidth_colorize1 (header : List Str) (i : Nat) (v : Str) :
    cellWidth header i (colorize1 v) = cellWidth header i v := by
  unfold cellWidth
  rw [stripAnsi_colorize1]

theorem getD_map_lt {f : Str → Str} {l : List Str} {j : Nat} (hj : j < l.length) :
    (l.map f).getD j [] = f (l.getD j []) := by
  rw [List.getD_eq_getElem _ _ (by simpa using hj), List.getD_eq_getElem _ _ hj]
  simp

theorem dedupFirst_aux :
    ∀ (l : List Str) (acc : List Str), (∀ x ∈ l, x ∉ acc) → l.Nodup →
      l.foldl (fun acc x => if x ∈ acc then acc else acc ++ [x]) acc = acc ++ l
  | [], acc, _, _ => by simp
  | x :: xs, acc, hmem, hnd => by
    simp only [List.foldl_cons]
    rw [if_neg (hmem x (by simp))]
    have hstep : ∀ y ∈ xs, y ∉ acc ++ [x] := by
      intro y hy
      rw [List.mem_append]
      rintro (h | h)
      · exact hmem y (by simp [hy]) h
      · simp only [List.mem_singleton] at h
        subst h
        exact (List.nodup_cons.mp hnd).1 hy
    rw [dedupFirst_aux xs (acc ++ [x]) hstep (List.Nodup.of_cons hnd)]
    simp

theorem dedupFirst_nodup {l : List Str} (h : l.Nodup) : dedupFirst l = l := by
  unfold dedupFirst
  rw [dedupFirst_aux l [] (by simp) h]
  simp

theorem updateRow_length (header : List Str) :
    ∀ (i : Nat) (ws : List Nat) (vs : List Str),
      (updateRow header i ws vs).length = ws.length
  | _, [], vs => by cases vs <;> rfl
  | _, _ :: _, [] => rfl
  | i, w :: ws, v :: vs => by
    simp only [updateRow, List.length_cons]
    rw [updateRow_length header (i + 1) ws vs]

theorem updateRow_getD (header : List Str) :
    ∀ (ws : List Nat) (vs : List Str) (i j : Nat), vs.length = ws.length →
      j < ws.length →
      (updateRow header i ws vs).getD j 0
        = max (ws.getD j 0) (cellWidth header (i + j) (vs.getD j []))
  | [], _, _, j, _, hj => by simp at hj
  | _ :: _, [], _, _, hl, _ => by simp at hl
  | w :: ws, v :: vs, i, j, hl, hj => by
    simp only [updateRow]
    cases j with
    | zero => simp
    | succ j =>
      simp only [List.getD_cons_succ]
      rw [updateRow_getD header ws vs (i + 1) j (by simpa using hl) (by simpa using hj)]
      congr 2
      omega

theorem foldl_updateRow_length (header : List Str) (f : List Str → List Str) :
    ∀ (rows : List (List Str)) (ws : List Nat),
      (rows.foldl (fun w r => updateRow header 0 w (f r)) ws).length = ws.length
  | [], _ => rfl
  | r :: rows, ws => by
    simp only [List.foldl_cons]
    rw [foldl_updateRow_length header f rows _, updateRow_length]

theorem foldl_updateRow_getD (header : List Str) (f : List Str → List Str)
    (hf : ∀ r, (f r).length = r.length) :
    ∀ (rows : List (List Str)) (ws : List Nat) (j : Nat),
      ws.length = header.length → (∀ r ∈ rows, r.length = header.length) →
      j < header.length →
      (rows.foldl (fun w r => updateRow header 0 w (f r)) ws).getD j 0
        = max (ws.getD j 0)
            ((rows.map (fun r => cellWidth header j ((f r).getD j []))).foldr max 0)
  | [], ws, j, _, _, _ => by simp
  | r :: rows, ws, j, hws, hlen, hj => by
    simp only [List.foldl_cons, List.map_cons, List.foldr_cons]
    rw [foldl_updateRow_getD header f hf rows _ j
      (by rw [updateRow_length]; exact hws) (fun r' h => hlen r' (by simp [h])) hj]
    rw [updateRow_getD header ws (f r) 0 j
      (by rw [hf, hlen r (by simp)]; exact hws.symm) (by omega)]
    rw [Nat.zero_add, Nat.max_assoc]

theorem widthsLoop_foldl (header : List Str) (nc : Bool) :
    ∀ (rows : List (List Str)) (ws : List Nat),
      ws.length = header.length → (∀ r ∈ rows, r.length = header.length) →
      widthsLoop header nc rows ws
        = some (rows.foldl
            (fun w r => updateRow header 0 w (if nc then r else colorize r)) ws)
  | [], _, _, _ => rfl
  | r :: rows, ws, hws, hlen => by
    simp only [widthsLoop]
    have hr : r.length = header.length := hlen r (by simp)
    have hinit : (if ws.length = 0 then List.replicate r.length 0 else ws) = ws := by
      by_cases h0 : ws.length = 0
      · rw [if_pos h0]
        have hr0 : r.length = 0 := by omega
        rw [hr0]
        exact (List.length_eq_zero.mp h0).symm
      · rw [if_neg h0]
    rw [hinit, if_pos (by omega : ws.length = r.length), List.foldl_cons]
    exact widthsLoop_foldl header nc rows _
      (by rw [updateRow_length]; exact hws) (fun r' h => hlen r' (by simp [h]))

theorem getColumnWidths_spec (rows : List (List Str)) (header : List Str) (nc : Bool)
    (hnd : header.Nodup) (hlen : ∀ r ∈ rows, r.length = header.length) :
    getColumnWidths rows header 2 nc = some (specWidths rows header) := by
  have hf : ∀ r : List Str, ((if nc then r else colorize r) : List Str).length = r.length := by
    intro r
    cases nc <;> simp [colorize]
  have hcell : ∀ r : List Str, r.length = header.length → ∀ j, j < header.length →
      cellWidth header j (((if nc then r else colorize r) : List Str).getD j [])
        = cellWidth header j (r.getD j []) := by
    intro r hr j hj
    cases nc
    · simp only [Bool.false_eq_true, if_false, colorize]
      rw [getD_map_lt (by omega)]
      exact cellWidth_colorize1 _ _ _
    · simp
  have hws0 : (updateRow header 0 (List.replicate header.length 0)
      (if nc then header else colorize header)).length = header.length := by
    rw [updateRow_length]
    simp
  unfold getColumnWidths
  rw [dedupFirst_nodup hnd]
  have hstep1 : widthsLoop header nc (header :: rows) []
      = widthsLoop header nc rows
          (updateRow header 0 (List.replicate header.length 0)
            (if nc then header else colorize header)) := by
    simp only [widthsLoop, List.length_nil, List.length_replicate,
      eq_self_iff_true, if_true]
  rw [hstep1, widthsLoop_foldl header nc rows _ hws0 hlen, Option.map_some']
  congr 1
  unfold specWidths
  apply List.ext_getElem
  · rw [List.length_map,
      foldl_updateRow_length header (fun r => if nc then r else colorize r) rows _, hws0]
    simp
  · intro i h1 h2
    have hin : i < header.length := by
      rw [List.length_map,
        foldl_updateRow_length header (fun r => if nc then r else colorize r) rows _,
        hws0] at h1
      exact h1
    simp only [List.getElem_map, List.getElem_range]
    congr 1
    rw [← List.getD_eq_getElem _ 0 (by
      rw [foldl_updateRow_length header (fun r => if nc then r else colorize r) rows _,
        hws0]
      exact hin)]
    rw [foldl_updateRow_getD header (fun r => if nc then r else colorize r) hf rows _ i
      hws0 hlen hin]
    rw [updateRow_getD header _ _ 0 i (by rw [hf]; simp) (by simp [hin])]
    have hrep : (List.replicate header.length 0).getD i 0 = 0 := by
      rw [List.getD_eq_getElem _ 0 (by simp [hin])]
      simp
    rw [hrep, Nat.zero_max, Nat.zero_add, List.map_cons, List.foldr_cons]
    congr 1
    · exact hcell header rfl i hin
    · congr 1
      apply List.map_congr_left
      intro r hr
      exact hcell r (hlen r hr) i hin

/-- C8: for every table whose rows match the (duplicate-free) header in
length, the column widths computed with coloring enabled equal the widths
computed with coloring disabled — ANSI escape bytes never count toward the
measured printable length — and both equal the spec's formula: per column,
the maximum escape-stripped length over header and all rows (with a
trailing batch marker additionally stripped in the identifier column) plus
the fixed padding of 2. -/
theorem C8_getColumnWidths (rows : List (List Str)) (header : List Str)
    (hnd : header.Nodup) (hlen : ∀ r ∈ rows, r.length = header.length) :
    getColumnWidths rows header 2 false = getColumnWidths rows header 2 true ∧
    getColumnWidths rows header 2 true = some (specWidths rows header) := by
  have h1 := getColumnWidths_spec rows header false hnd hlen
  have h2 := getColumnWidths_spec rows header true hnd hlen
  exact ⟨h1.trans h2.symm, h2⟩

/-- Witness for C8 at the spec's example of a RUNNING status cell. -/
theorem C8_getColumnWidths_witness :
    getColumnWidths [["RUNNING".data, "a".data]] ["State".data, "x".data] 2 false
      = getColumnWidths [["RUNNING".data, "a".data]] ["State".data, "x".data] 2 true ∧
    getColumnWidths [["RUNNING".data, "a".data]] ["State".data, "x".data] 2 true
      = some (specWidths [["RUNNING".data, "a".data]] ["State".data, "x".data]) :=
  C8_getColumnWidths [["RUNNING".data, "a".data]] ["State".data, "x".data]
    (by decide) (by decide)

/-! ### Rendering (xacct.py lines 155-166) -/

/-- Python `'\t'.join`. -/
def joinTab : List Str → Str
  | [] => []
  | [x] => x
  | x :: xs => x ++ '\t' :: joinTab xs

/-- Embedding of `tabulate` (xacct.py lines 155-166): in tsv mode join the
raw values with tabs; otherwise colorize and left-justify every cell to its
column width plus the number of characters its ANSI escapes consume
(`'{:<N}'.format` pads with spaces and never truncates).  `none` models the
IndexError when the line has fewer cells than the width table. -/
def tabulate (line : List Str) (col_widths : List Nat) (asTsv no_color : Bool) :
    Option Str :=
  if asTsv then some (joinTab line)
  else
    let line := if no_color then line else colorize line
    if col_widths.length ≤ line.length then
      some (((List.range col_widths.length).map (fun i =>
        let cell := line.getD i []
        let offset := cell.length - (stripAnsi cell).length
        cell ++ List.replicate (col_widths.getD i 0 + offset - cell.length) ' ')).flatten)
    else none

/-- Python `s.split('\t')`. -/
def splitTab : Str → List Str
  | [] => [[]]
  | c :: cs =>
    if c = '\t' then [] :: splitTab cs
    else
      match splitTab cs with
      | h :: t => (c :: h) :: t
      | [] => [[c]]

theorem splitTab_noTab : ∀ {l : Str}, (('\t' : Char) ∉ l) → splitTab l = [l]
  | [], _ => rfl
  | c :: cs, h => by
    have hc : ¬ (c = '\t') := fun e => h (by rw [← e]; exact List.mem_cons_self c cs)
    have ih := splitTab_noTab (l := cs) (fun hm => h (List.mem_cons_of_mem c hm))
    rw [splitTab, if_neg hc, ih]

theorem splitTab_append : ∀ (x r : Str), (('\t' : Char) ∉ x) →
    splitTab (x ++ '\t' :: r) = x :: splitTab r
  | [], r, _ => by simp [splitTab]
  | c :: x, r, h => by
    have hc : ¬ (c = '\t') := fun e => h (by rw [← e]; exact List.mem_cons_self c x)
    have ih := splitTab_append x r (fun hm => h (List.mem_cons_of_mem c hm))
    rw [List.cons_append, splitTab, if_neg hc, ih]

theorem splitTab_joinTab : ∀ (l : List Str), l ≠ [] →
    (∀ v ∈ l, ('\t' : Char) ∉ v) → splitTab (joinTab l) = l
  | [], hne, _ => absurd rfl hne
  | [x], _, h => splitTab_noTab (h x (by simp))
  | x :: y :: xs, _, h => by
    rw [show joinTab (x :: y :: xs) = x ++ '\t' :: joinTab (y :: xs) from rfl]
    rw [splitTab_append x _ (h x (by simp))]
    rw [splitTab_joinTab (y :: xs) (by simp) (fun v hv => h v (List.mem_cons_of_mem x hv))]

/-- C9 counterexample: a value containing a tab character breaks the
round trip — rendering then splitting does not recover the original
column values. -/
theorem C9_counterexample :
    tabulate [['a', '\t', 'b']] [] true true = some ['a', '\t', 'b'] ∧
    splitTab ['a', '\t', 'b'] = [['a'], ['b']] ∧
    ([['a'], ['b']] : List Str) ≠ [['a', '\t', 'b']] := by
  decide

/-- C9 (amended): for every nonempty line (header or data row) none of
whose values contains a tab character, rendering in tab-separated mode
joins the raw values with tabs (no padding) and splitting the rendered
line on tabs recovers exactly the original values. -/
theorem C9_tsv_roundtrip (line : List Str) (col_widths : List Nat) (nc : Bool)
    (hne : line ≠ []) (htab : ∀ v ∈ line, ('\t' : Char) ∉ v) :
    tabulate line col_widths true nc = some (joinTab line) ∧
    splitTab (joinTab line) = line :=
  ⟨rfl, splitTab_joinTab line hne htab⟩

/-- Witness for C9 at a concrete header-plus-row rendering. -/
theorem C9_tsv_roundtrip_witness :
    tabulate ["JobID".data, "State".data] [] true true
        = some (joinTab ["JobID".data, "State".data]) ∧
    splitTab (joinTab ["JobID".data, "State".data]) = ["JobID".data, "State".data] :=
  C9_tsv_roundtrip ["JobID".data, "State".data] [] true (by decide) (by decide)
